import Mathlib

/-!
# hashingwriter: a chunked, hashing pass-through writer

Shallow embedding of `writer.go` (type `HashingWriter`, `NewHashingWriter`,
`Write`, `Close`) and, from `writer_test.go`, of the helper `every`, the recording and
the verifying callback and the input of `TestWriter`.

* Go `int` counters are modelled as `Int`; a stream would have to carry 2^63
  bytes before a counter wraps, so wrap-around is not modelled.
* The four collaborators of the writer (`w`, `newHash`, `iterStops`, `onSum`)
  are stateful Go values.  They are modelled as functions over an explicit
  world state `σ`; the hash object held in field `h` is a value of type `η`.
* A slice expression out of range panics in Go; the loop of `Write` may also
  run forever (a sink that reports `0, nil`).  Both are outcomes of the model.
-/

namespace hashingwriter

/-- A Go `byte`. -/
abbrev Byte := UInt8

/-- A non-nil Go `error` value, identified by its message. -/
abbrev Error := String

/-- The collaborators a `HashingWriter` is constructed with, over a world state `σ`
and a hash-object state `η`. -/
structure Collab (σ η : Type) where
  /-- The call `w.Write(p)` of the destination sink: reported count and error. -/
  wWrite : σ → List Byte → (Int × Option Error) × σ
  /-- The call `h.Write(p)` on a hash object: error and the updated object. -/
  hWrite : σ → η → List Byte → (Option Error × η) × σ
  /-- The call `h.Sum(nil)`: it leaves the hash object unchanged. -/
  hSum : η → List Byte
  /-- The call `newHash()`. -/
  newHash : σ → η × σ
  /-- The call `iterStops()`. -/
  iterStops : σ → Int × σ
  /-- The call `onSum(offset, sum)`. -/
  onSum : σ → Int → List Byte → Option Error × σ

/-- The mutable fields of the Go struct `HashingWriter`. -/
structure HashingWriter (η : Type) where
  nextStop : Int
  nWritten : Int
  nSum : Int
  h : η

/-- How a call of `Write` ends. -/
inductive Outcome where
  /-- The call returned `(n, err)`. -/
  | returned (n : Int) (err : Option Error)
  /-- A slice expression was out of range. -/
  | panicked
  /-- The loop was still running when the fuel ran out. -/
  | running
  deriving DecidableEq

variable {σ η : Type}

/-- The constructor `NewHashingWriter`: the struct literal calls `iterStops()` and then
`newHash()`. -/
def NewHashingWriter (c : Collab σ η) (s : σ) : HashingWriter η × σ :=
  let it := c.iterStops s
  let nh := c.newHash it.2
  ({ nextStop := it.1, nWritten := 0, nSum := 0, h := nh.1 }, nh.2)

/-- The loop of `Write`, one unit of fuel per iteration; `totalN` is the local of that
name. -/
def writeLoop (c : Collab σ η) :
    Nat → HashingWriter η → σ → List Byte → Int → Outcome × HashingWriter η × σ
  | 0, hw, s, _, _ => (Outcome.running, hw, s)
  | fuel + 1, hw, s, bs, totalN =>
    if 0 < bs.length then
      let l0 : Int := hw.nextStop - hw.nWritten
      let l : Int := if l0 > (bs.length : Int) then (bs.length : Int) else l0
      if l < 0 then (Outcome.panicked, hw, s)
      else
        let w := c.wWrite s (bs.take l.toNat)
        let n : Int := w.1.1
        match w.1.2 with
        | some e => (Outcome.returned totalN (some e), hw, w.2)
        | none =>
          let hr := c.hWrite w.2 hw.h (bs.take l.toNat)
          match hr.1.1 with
          | some e => (Outcome.returned totalN (some e), { hw with h := hr.1.2 }, hr.2)
          | none =>
            let hw2 : HashingWriter η := { hw with h := hr.1.2, nWritten := hw.nWritten + n }
            if hw2.nWritten = hw2.nextStop then
              let cb := c.onSum hr.2 hw2.nWritten (c.hSum hw2.h)
              match cb.1 with
              | some e => (Outcome.returned totalN (some e), hw2, cb.2)
              | none =>
                let it := c.iterStops cb.2
                let nh := c.newHash it.2
                let hw3 : HashingWriter η :=
                  { nextStop := it.1, nWritten := hw2.nWritten, nSum := hw2.nSum + n, h := nh.1 }
                if n < 0 ∨ (bs.length : Int) < n then (Outcome.panicked, hw3, nh.2)
                else writeLoop c fuel hw3 nh.2 (bs.drop n.toNat) (totalN + n)
            else
              if n < 0 ∨ (bs.length : Int) < n then (Outcome.panicked, hw2, hr.2)
              else writeLoop c fuel hw2 hr.2 (bs.drop n.toNat) (totalN + n)
    else (Outcome.returned totalN none, hw, s)

/-- The method `Write`. -/
def HashingWriter.Write (c : Collab σ η) (fuel : Nat) (hw : HashingWriter η) (s : σ)
    (bs : List Byte) : Outcome × HashingWriter η × σ :=
  writeLoop c fuel hw s bs 0

/-- The method `Close`; it assigns no field of the writer. -/
def HashingWriter.Close (c : Collab σ η) (hw : HashingWriter η) (s : σ) : Option Error × σ :=
  if hw.nSum ≠ hw.nWritten then
    let cb := c.onSum s hw.nWritten (c.hSum hw.h)
    match cb.1 with
    | some e => (some e, cb.2)
    | none => (none, cb.2)
  else (none, s)

/-- The boundary source `every(n)` of the test file: call number `i` (from 0) returns
`(i + 1) * n`. -/
def every (n : Int) (i : Nat) : Int := ((i : Int) + 1) * n

/-! ## A scripted world: the collaborators of the tests -/

/-- What the scripted collaborators have seen so far. -/
structure World where
  /-- The slices handed to the destination sink, in order. -/
  sunk : List (List Byte)
  /-- The `(offset, sum)` pairs handed to `onSum`, in order. -/
  events : List (Int × List Byte)
  /-- The number of calls of `iterStops` so far. -/
  pulls : Nat

/-- The world before anything was called. -/
def World.initial : World := { sunk := [], events := [], pulls := 0 }

/-- Scripted collaborators: the boundary source yields `stops 0, stops 1, ...`; a hash
object is the list of bytes it has absorbed and its sum is `H` of that list; `onSum`
records the event and answers `verdict offset sum`; the sink records the slice and answers
`sinkReply earlierSlices slice`. -/
def scripted (stops : Nat → Int) (H : List Byte → List Byte)
    (verdict : Int → List Byte → Option Error)
    (sinkReply : List (List Byte) → List Byte → Int × Option Error) :
    Collab World (List Byte) where
  wWrite s p := (sinkReply s.sunk p, { s with sunk := s.sunk ++ [p] })
  hWrite s h p := ((none, h ++ p), s)
  hSum h := H h
  newHash s := ([], s)
  iterStops s := (stops s.pulls, { s with pulls := s.pulls + 1 })
  onSum s off d := (verdict off d, { s with events := s.events ++ [(off, d)] })

/-- A sink that accepts every write in full, like `ioutil.Discard`. -/
def acceptAll (_ : List (List Byte)) (p : List Byte) : Int × Option Error :=
  ((p.length : Int), none)

/-- A callback that never errors. -/
def accept (_ : Int) (_ : List Byte) : Option Error := none

/-- The well-behaved collaborators: scripted boundaries, hash `H`, a callback answering
`verdict`, and a sink that accepts every write in full. -/
def ideal (stops : Nat → Int) (H : List Byte → List Byte)
    (verdict : Int → List Byte → Option Error) : Collab World (List Byte) :=
  scripted stops H verdict acceptAll

/-- A callback that refuses the digest at offset `bad` and accepts every other one, like
the verifying callback of the test file on corrupted input. -/
def refuseAt (bad : Int) (off : Int) (_ : List Byte) : Option Error :=
  if off = bad then some "bad sum" else none

/-- A sink that takes one byte of every write and reports `io.ErrShortWrite`. -/
def failingSink (_ : List (List Byte)) (_ : List Byte) : Int × Option Error :=
  (1, some "short write")

/-- A sink that takes one byte of every write and reports no error. -/
def oneByteSink (_ : List (List Byte)) (_ : List Byte) : Int × Option Error :=
  (1, none)

/-- The 13 bytes of `"hello, world!"`. -/
def helloWorld : List Byte := [104, 101, 108, 108, 111, 44, 32, 119, 111, 114, 108, 100, 33]

/-- The input of the test: `bytes.Repeat([]byte("hello, world!"), 65536)`. -/
def testData : List Byte := (List.replicate 65536 helloWorld).flatten

/-! ## Recording every collaborator call -/

/-- One call of a collaborator, with what it returned. -/
inductive Call where
  | sink (p : List Byte) (n : Int) (err : Option Error)
  | hash (p : List Byte) (err : Option Error)
  | onSum (offset : Int) (sum : List Byte) (err : Option Error)
  | iterStops (stop : Int)
  | newHash
  deriving DecidableEq

/-- The error a call returned, if any. -/
def Call.err : Call → Option Error
  | Call.sink _ _ e => e
  | Call.hash _ e => e
  | Call.onSum _ _ e => e
  | Call.iterStops _ => none
  | Call.newHash => none

/-- The same collaborators, each call appended to a log. -/
def traced (c : Collab σ η) : Collab (σ × List Call) η where
  wWrite s p :=
    let r := c.wWrite s.1 p
    (r.1, (r.2, s.2 ++ [Call.sink p r.1.1 r.1.2]))
  hWrite s h p :=
    let r := c.hWrite s.1 h p
    (r.1, (r.2, s.2 ++ [Call.hash p r.1.1]))
  hSum h := c.hSum h
  newHash s :=
    let r := c.newHash s.1
    (r.1, (r.2, s.2 ++ [Call.newHash]))
  iterStops s :=
    let r := c.iterStops s.1
    (r.1, (r.2, s.2 ++ [Call.iterStops r.1]))
  onSum s off d :=
    let r := c.onSum s.1 off d
    (r.1, (r.2, s.2 ++ [Call.onSum off d r.1]))

/-! ## Driving a writer: construct, write each buffer in turn, close -/

/-- Consecutive `Write` calls, one per buffer, on the same writer; the outcomes are
collected in order. -/
def writeAll (c : Collab σ η) (fuel : Nat) :
    List (List Byte) → HashingWriter η → σ → List Outcome × HashingWriter η × σ
  | [], hw, s => ([], hw, s)
  | bs :: rest, hw, s =>
    let r := HashingWriter.Write c fuel hw s bs
    let q := writeAll c fuel rest r.2.1 r.2.2
    (r.1 :: q.1, q.2.1, q.2.2)

/-- The state of a fresh writer after the given `Write` calls. -/
def afterWrites (c : Collab σ η) (fuel : Nat) (ws : List (List Byte)) (s : σ) :
    List Outcome × HashingWriter η × σ :=
  let nw := NewHashingWriter c s
  writeAll c fuel ws nw.1 nw.2

/-- A whole session as in `TestWriter`: `NewHashingWriter`, the `Write` calls, `Close`.
Returns the outcomes of the writes, the result of `Close` and the final world. -/
def session (c : Collab σ η) (fuel : Nat) (ws : List (List Byte)) (s : σ) :
    List Outcome × Option Error × σ :=
  let r := afterWrites c fuel ws s
  let cl := HashingWriter.Close c r.2.1 r.2.2
  (r.1, cl.1, cl.2)

/-! ## Boundary policies and the chunks they cut -/

/-- A boundary policy as the spec describes it: the first boundary is positive and each
boundary is strictly greater than the one before. -/
def Policy (stops : Nat → Int) : Prop :=
  0 < stops 0 ∧ ∀ i, stops i < stops (i + 1)

/-- The boundary before boundary number `m`; the start of the stream for `m = 0`. -/
def prevStop (stops : Nat → Int) : Nat → Int
  | 0 => 0
  | m + 1 => stops m

/-- The bytes of `data` at positions `a` (inclusive) up to `b` (exclusive), `data[a:b]`. -/
def slice (data : List Byte) (a b : Int) : List Byte :=
  (data.drop a.toNat).take (b - a).toNat

/-- The events of the first `m` completed chunks of `data`: chunk `i` ends at `stops i`
and its digest is `H` of the bytes between the boundary before and `stops i`. -/
def chunkEvents (stops : Nat → Int) (H : List Byte → List Byte) (data : List Byte)
    (m : Nat) : List (Int × List Byte) :=
  (List.range m).map fun i => (stops i, H (slice data (prevStop stops i) (stops i)))

/-- The offset of the last event, `0` when there is none. -/
def lastOffset (evs : List (Int × List Byte)) : Int :=
  match evs.getLast? with
  | some ev => ev.1
  | none => 0

/-- The state of a writer with well-behaved collaborators between two `Write` calls, after
`data` was written and `m` boundaries were reached. -/
structure Inv (stops : Nat → Int) (H : List Byte → List Byte) (data : List Byte) (m : Nat)
    (hw : HashingWriter (List Byte)) (s : World) : Prop where
  pulls : s.pulls = m + 1
  nextStop : hw.nextStop = stops m
  nWritten : hw.nWritten = (data.length : Int)
  below : hw.nWritten < hw.nextStop
  reached : prevStop stops m ≤ hw.nWritten
  acc : hw.h = data.drop (prevStop stops m).toNat
  events : s.events = chunkEvents stops H data m
  sunk : s.sunk.flatten = data
  nSum : hw.nSum ≤ prevStop stops m

/-- The slices handed to the sink during one `Write`, replayed against the counters of the
writer: `next` is `nextStop`, `idx` the number of boundaries pulled so far and `pos` is
`nWritten` at the time the first slice is handed over.  Each slice is at most
`nextStop - nWritten` long. -/
def runsBounded (stops : Nat → Int) : Int → Nat → Int → List (List Byte) → Prop
  | _, _, _, [] => True
  | next, idx, pos, r :: rest =>
    (r.length : Int) ≤ next - pos ∧
      if pos + (r.length : Int) = next then
        runsBounded stops (stops idx) (idx + 1) (pos + (r.length : Int)) rest
      else runsBounded stops next idx (pos + (r.length : Int)) rest

/-- How the calls made during one `Write` relate to its outcome: either no call returned
an error and `Write` did not return one, or the last call returned an error, no earlier
call did, and `Write` returned that error. -/
def TraceOK (out : Outcome) (calls : List Call) : Prop :=
  ((∀ x ∈ calls, x.err = none) ∧ ∀ n e, out ≠ Outcome.returned n (some e)) ∨
    ∃ pre x n e, calls = pre ++ [x] ∧ (∀ y ∈ pre, y.err = none) ∧ x.err = some e ∧
      out = Outcome.returned n (some e)

/-- A sink that accepts its first write in full and, from the second write on, takes one
byte and reports `io.ErrShortWrite`. -/
def failSecond (earlier : List (List Byte)) (p : List Byte) : Int × Option Error :=
  if earlier.length = 0 then ((p.length : Int), none) else (1, some "short write")

/-- The counters of a writer in the scripted world are in order: `nSum ≤ nWritten ≤
nextStop`, and `nextStop` is the boundary pulled last. -/
def Counters (stops : Nat → Int) (hw : HashingWriter (List Byte)) (s : World) : Prop :=
  hw.nSum ≤ hw.nWritten ∧ hw.nWritten ≤ hw.nextStop ∧
    ∃ m, s.pulls = m + 1 ∧ hw.nextStop = stops m

/-- A sink that takes the first byte of every non-empty write and reports no error. -/
def byteAtATime (_ : List (List Byte)) (p : List Byte) : Int × Option Error :=
  (if p.length = 0 then 0 else 1, none)

/-- A call of the boundary source. -/
def Call.isPull : Call → Bool
  | Call.iterStops _ => true
  | _ => false

/-- A call of the digest callback that returned nil. -/
def Call.isOkSum : Call → Bool
  | Call.onSum _ _ none => true
  | _ => false

/-- The boundary source is called right after each callback call that returned nil and at
no other time; `expect` says that the call before was such a callback call. -/
def pullsFollowSums : Bool → List Call → Bool
  | expect, [] => !expect
  | expect, Call.iterStops _ :: rest => expect && pullsFollowSums false rest
  | expect, Call.onSum _ _ none :: rest => !expect && pullsFollowSums true rest
  | expect, _ :: rest => !expect && pullsFollowSums false rest

/-- The state of a writer with well-behaved collaborators right after the callback refused
the digest of chunk `j`: `data` has been forwarded, it ends on boundary `stops j`, and
neither the boundary nor the accumulator has been replaced. -/
structure Failed (stops : Nat → Int) (H : List Byte → List Byte) (data : List Byte) (j : Nat)
    (hw : HashingWriter (List Byte)) (s : World) : Prop where
  pulls : s.pulls = j + 1
  nextStop : hw.nextStop = stops j
  nWritten : hw.nWritten = stops j
  length : (data.length : Int) = stops j
  acc : hw.h = slice data (prevStop stops j) (stops j)
  events : s.events = chunkEvents stops H data (j + 1)
  sunk : s.sunk.flatten = data
  nSum : hw.nSum ≤ prevStop stops j

/-- The callback answers nil on the digests of the chunks `a, ..., b - 1` of `data`. -/
def Passed (stops : Nat → Int) (H : List Byte → List Byte)
    (v : Int → List Byte → Option Error) (data : List Byte) (a b : Nat) : Prop :=
  ∀ k, a ≤ k → k < b → v (stops k) (H (slice data (prevStop stops k) (stops k))) = none

/-- Consecutive `Write` calls that stop at the first call that does not return a nil
error, as `io.Copy` and the write loop of the test do. -/
def streamAll (c : Collab σ η) (fuel : Nat) :
    List (List Byte) → HashingWriter η → σ → List Outcome × HashingWriter η × σ
  | [], hw, s => ([], hw, s)
  | bs :: rest, hw, s =>
    let r := HashingWriter.Write c fuel hw s bs
    match r.1 with
    | Outcome.returned _ none =>
      let q := streamAll c fuel rest r.2.1 r.2.2
      (r.1 :: q.1, q.2.1, q.2.2)
    | _ => ([r.1], r.2.1, r.2.2)

/-- The map `sumMap` of the test, filled by `sumMap[sum.Offset] = sum.Sum` for each recorded
event in order; a key that was never set reads as the nil slice. -/
def sumMapOf (sums : List (Int × List Byte)) : Int → List Byte :=
  sums.foldl (fun m ev => Function.update m ev.1 ev.2) (fun _ => [])

/-- The error of the verifying callback, `fmt.Errorf("bad sum at %d", offset)`. -/
def badSum (offset : Int) : Error := "bad sum at " ++ toString offset

/-- The verifying callback of the test: it compares the digest with the recorded one. -/
def verifying (sumMap : Int → List Byte) (offset : Int) (sum : List Byte) : Option Error :=
  if sumMap offset = sum then none else some (badSum offset)

/-- The sums recorded by the first run of the test: one `Write` of the clean data, then
`Close`, with a callback that records and returns nil. -/
def cleanSums (stops : Nat → Int) (H : List Byte → List Byte) (fuel : Nat)
    (data : List Byte) : List (Int × List Byte) :=
  (session (ideal stops H accept) fuel [data] World.initial).2.2.events

/-- A verifying run of the test: `NewHashingWriter`, the buffers streamed until a `Write`
fails, then `Close`.  Returns the outcomes of the writes, the result of `Close` and the
final world. -/
def verifyRun (c : Collab σ η) (fuel : Nat) (ws : List (List Byte)) (s : σ) :
    List Outcome × Option Error × σ :=
  let nw := NewHashingWriter c s
  let r := streamAll c fuel ws nw.1 nw.2
  let cl := HashingWriter.Close c r.2.1 r.2.2
  (r.1, cl.1, cl.2)

/-! ## One iteration of the loop with well-behaved collaborators -/

theorem writeLoop_nil (c : Collab σ η) (fuel : Nat) (hw : HashingWriter η) (s : σ) (t : Int) :
    writeLoop c (fuel + 1) hw s [] t = (Outcome.returned t none, hw, s) := by
  simp [writeLoop]

theorem writeLoop_ideal_short (stops : Nat → Int) (H : List Byte → List Byte)
    (v : Int → List Byte → Option Error) (fuel : Nat) (hw : HashingWriter (List Byte))
    (s : World) (bs : List Byte) (t : Int) (hne : 0 < bs.length)
    (hlt : (bs.length : Int) < hw.nextStop - hw.nWritten) :
    writeLoop (ideal stops H v) (fuel + 2) hw s bs t =
      (Outcome.returned (t + bs.length) none,
        { hw with h := hw.h ++ bs, nWritten := hw.nWritten + bs.length },
        { s with sunk := s.sunk ++ [bs] }) := by
  have h1 : ¬ (hw.nextStop - hw.nWritten < (bs.length : Int)) := by omega
  have h2 : ¬ (hw.nextStop - hw.nWritten < 0) := by omega
  have h3 : ¬ (hw.nWritten + (bs.length : Int) = hw.nextStop) := by omega
  have h4 : ¬ ((bs.length : Int) < 0) := by omega
  simp [writeLoop, ideal, scripted, acceptAll, hne, hlt, h1, h2, h3, h4]

theorem writeLoop_ideal_reach (stops : Nat → Int) (H : List Byte → List Byte)
    (v : Int → List Byte → Option Error) (fuel : Nat) (hw : HashingWriter (List Byte))
    (s : World) (bs : List Byte) (t : Int) (hpos : 0 < hw.nextStop - hw.nWritten)
    (hle : hw.nextStop - hw.nWritten ≤ (bs.length : Int)) :
    writeLoop (ideal stops H v) (fuel + 1) hw s bs t =
      match v hw.nextStop (H (hw.h ++ bs.take (hw.nextStop - hw.nWritten).toNat)) with
      | some e =>
        (Outcome.returned t (some e),
          { hw with h := hw.h ++ bs.take (hw.nextStop - hw.nWritten).toNat,
                    nWritten := hw.nextStop },
          { s with sunk := s.sunk ++ [bs.take (hw.nextStop - hw.nWritten).toNat],
                   events := s.events ++
                     [(hw.nextStop, H (hw.h ++ bs.take (hw.nextStop - hw.nWritten).toNat))] })
      | none =>
        writeLoop (ideal stops H v) fuel
          { nextStop := stops s.pulls, nWritten := hw.nextStop,
            nSum := hw.nSum + (hw.nextStop - hw.nWritten), h := [] }
          { sunk := s.sunk ++ [bs.take (hw.nextStop - hw.nWritten).toNat],
            events := s.events ++
              [(hw.nextStop, H (hw.h ++ bs.take (hw.nextStop - hw.nWritten).toNat))],
            pulls := s.pulls + 1 }
          (bs.drop (hw.nextStop - hw.nWritten).toNat) (t + (hw.nextStop - hw.nWritten)) := by
  have hne : 0 < bs.length := by omega
  have h1 : ¬ ((bs.length : Int) < hw.nextStop - hw.nWritten) := by omega
  have h2 : ¬ (hw.nextStop - hw.nWritten < 0) := by omega
  have hn : (((bs.take (hw.nextStop - hw.nWritten).toNat).length : Nat) : Int)
      = hw.nextStop - hw.nWritten := by
    rw [List.length_take]; omega
  have h3 : hw.nWritten + (hw.nextStop - hw.nWritten) = hw.nextStop := by omega
  have h4 : ¬ ((bs.length : Int) < hw.nextStop - hw.nWritten) := by omega
  rw [writeLoop]
  simp only [ideal, scripted, acceptAll, hne, h1, h2, hn, h3, h4, if_true, if_false,
    gt_iff_lt, or_self]

/-! ## The invariant between `Write` calls -/

theorem Policy.prevStop_lt {stops : Nat → Int} (hp : Policy stops) (m : Nat) :
    prevStop stops m < stops m := by
  cases m with
  | zero => exact hp.1
  | succ k => exact hp.2 k

theorem Policy.prevStop_nonneg {stops : Nat → Int} (hp : Policy stops) (m : Nat) :
    0 ≤ prevStop stops m := by
  induction m with
  | zero => simp [prevStop]
  | succ k ih =>
    have := hp.prevStop_lt k
    simp only [prevStop]; omega

theorem Policy.stops_le_prevStop {stops : Nat → Int} (hp : Policy stops) {i m : Nat}
    (h : i < m) : stops i ≤ prevStop stops m := by
  induction m with
  | zero => omega
  | succ k ih =>
    simp only [prevStop]
    rcases Nat.lt_succ_iff_lt_or_eq.mp h with h1 | h1
    · have := ih h1
      have := hp.prevStop_lt k
      omega
    · subst h1; exact le_refl _

theorem slice_append (data x : List Byte) {a b : Int} (ha : 0 ≤ a) (hab : a ≤ b)
    (hb : b ≤ (data.length : Int)) : slice (data ++ x) a b = slice data a b := by
  unfold slice
  rw [List.drop_append_of_le_length (by omega), List.take_append_of_le_length]
  rw [List.length_drop]; omega

theorem chunkEvents_append {stops : Nat → Int} (hp : Policy stops) (H : List Byte → List Byte)
    (data x : List Byte) (m : Nat) (h : prevStop stops m ≤ (data.length : Int)) :
    chunkEvents stops H (data ++ x) m = chunkEvents stops H data m := by
  unfold chunkEvents
  apply List.map_congr_left
  intro i hi
  rw [List.mem_range] at hi
  have h1 := hp.stops_le_prevStop hi
  have h2 := hp.prevStop_nonneg i
  have h3 := hp.prevStop_lt i
  rw [slice_append data x h2 (by omega) (by omega)]

theorem chunkEvents_succ (stops : Nat → Int) (H : List Byte → List Byte) (data : List Byte)
    (m : Nat) : chunkEvents stops H data (m + 1) =
      chunkEvents stops H data m ++ [(stops m, H (slice data (prevStop stops m) (stops m)))] := by
  simp [chunkEvents, List.range_succ]

theorem Inv.fresh {stops : Nat → Int} (hp : Policy stops) (H : List Byte → List Byte)
    (v : Int → List Byte → Option Error) :
    Inv stops H [] 0 (NewHashingWriter (ideal stops H v) World.initial).1
      (NewHashingWriter (ideal stops H v) World.initial).2 := by
  constructor <;> simp [NewHashingWriter, ideal, scripted, World.initial, prevStop, chunkEvents]
  exact hp.1

/-- A run that stays below the next boundary keeps the invariant. -/
theorem Inv.short {stops : Nat → Int} (hp : Policy stops) {H : List Byte → List Byte}
    {data : List Byte} {m : Nat} {hw : HashingWriter (List Byte)} {s : World}
    (hi : Inv stops H data m hw s) (bs : List Byte)
    (hlt : (bs.length : Int) < hw.nextStop - hw.nWritten) :
    Inv stops H (data ++ bs) m
      { hw with h := hw.h ++ bs, nWritten := hw.nWritten + bs.length }
      { s with sunk := s.sunk ++ [bs] } := by
  have h0 := hp.prevStop_nonneg m
  have h1 := hi.reached
  have h2 := hi.nWritten
  constructor
  · exact hi.pulls
  · exact hi.nextStop
  · simp only [List.length_append, Nat.cast_add]; omega
  · simp only; omega
  · simp only; omega
  · simp only
    rw [List.drop_append_of_le_length (by omega), hi.acc]
  · simp only
    rw [chunkEvents_append hp H data bs m (by omega)]; exact hi.events
  · simp only [List.flatten_append, hi.sunk, List.flatten_cons, List.flatten_nil,
      List.append_nil]
  · exact hi.nSum

/-- A run that reaches the next boundary, after a successful callback, gives the invariant
for the next chunk. -/
theorem Inv.reach {stops : Nat → Int} (hp : Policy stops) {H : List Byte → List Byte}
    {data : List Byte} {m : Nat} {hw : HashingWriter (List Byte)} {s : World}
    (hi : Inv stops H data m hw s) (run : List Byte)
    (hrun : (run.length : Int) = hw.nextStop - hw.nWritten) :
    Inv stops H (data ++ run) (m + 1)
      { nextStop := stops s.pulls, nWritten := hw.nextStop,
        nSum := hw.nSum + (hw.nextStop - hw.nWritten), h := [] }
      { sunk := s.sunk ++ [run],
        events := s.events ++ [(hw.nextStop, H (hw.h ++ run))],
        pulls := s.pulls + 1 } := by
  have h0 := hp.prevStop_nonneg m
  have h1 := hi.reached
  have h2 := hi.nWritten
  have h3 := hi.nextStop
  have h4 := hi.below
  have h5 := hi.nSum
  have hlen : (((data ++ run).length : Nat) : Int) = stops m := by
    simp only [List.length_append, Nat.cast_add]; omega
  constructor
  · simp only [hi.pulls]
  · simp only [hi.pulls]
  · simp only; omega
  · simp only [hi.pulls]; rw [h3]; exact hp.2 m
  · simp only [prevStop]; omega
  · simp only [prevStop]
    rw [List.drop_eq_nil_of_le]; omega
  · simp only
    rw [chunkEvents_succ, chunkEvents_append hp H data run m (by omega), ← hi.events, h3]
    congr 3
    unfold slice
    rw [List.drop_append_of_le_length (by omega), ← hi.acc, List.take_of_length_le]
    rw [List.length_append, hi.acc, List.length_drop]; omega
  · simp only [List.flatten_append, hi.sunk, List.flatten_cons, List.flatten_nil,
      List.append_nil]
  · simp only [prevStop]; omega

/-- The loop of `Write` with well-behaved collaborators: with more fuel than bytes it
returns; either a callback refused a digest, or the whole input was forwarded and the
invariant holds for the longer stream.  A writer that starts on a boundary with `nSum`
up to date ends with `nSum` at the last boundary reached. -/
theorem writeLoop_ideal_inv {stops : Nat → Int} (hp : Policy stops)
    (H : List Byte → List Byte) (v : Int → List Byte → Option Error) :
    ∀ (fuel : Nat) (bs : List Byte) (hw : HashingWriter (List Byte)) (s : World)
      (data : List Byte) (m : Nat) (t : Int),
      Inv stops H data m hw s → bs.length < fuel →
      (∃ n e hw1 s1, writeLoop (ideal stops H v) fuel hw s bs t
          = (Outcome.returned n (some e), hw1, s1) ∧ ∃ off d, v off d = some e) ∨
      (∃ hw1 s1 m1, writeLoop (ideal stops H v) fuel hw s bs t
          = (Outcome.returned (t + bs.length) none, hw1, s1) ∧ m ≤ m1 ∧
          Inv stops H (data ++ bs) m1 hw1 s1 ∧
          (hw.nWritten = prevStop stops m → hw.nSum = prevStop stops m →
            hw1.nSum = prevStop stops m1)) := by
  intro fuel
  induction fuel with
  | zero => intro bs hw s data m t _ hf; omega
  | succ fuel ih =>
    intro bs hw s data m t hi hf
    by_cases hne : bs.length = 0
    · have hnil : bs = [] := List.length_eq_zero.mp hne
      subst hnil
      right
      refine ⟨hw, s, m, ?_, le_refl _, ?_, fun _ h => h⟩
      · rw [writeLoop_nil]; simp
      · simpa using hi
    · have hpos : 0 < bs.length := Nat.pos_of_ne_zero hne
      have hb := hi.below
      by_cases hlt : (bs.length : Int) < hw.nextStop - hw.nWritten
      · obtain ⟨f, rfl⟩ : ∃ f, fuel = f + 1 := ⟨fuel - 1, by omega⟩
        right
        refine ⟨_, _, m, writeLoop_ideal_short stops H v f hw s bs t hpos hlt, le_refl _,
          hi.short hp bs hlt, fun _ h => h⟩
      · have hle : hw.nextStop - hw.nWritten ≤ (bs.length : Int) := by omega
        have hrun : (((bs.take (hw.nextStop - hw.nWritten).toNat).length : Nat) : Int)
            = hw.nextStop - hw.nWritten := by
          rw [List.length_take]; omega
        rw [writeLoop_ideal_reach stops H v fuel hw s bs t (by omega) hle]
        cases hv : v hw.nextStop (H (hw.h ++ bs.take (hw.nextStop - hw.nWritten).toNat)) with
        | some e =>
          left
          exact ⟨t, e, _, _, rfl, _, _, hv⟩
        | none =>
          simp only
          have hi2 := hi.reach hp (bs.take (hw.nextStop - hw.nWritten).toNat) hrun
          have hlen : (bs.drop (hw.nextStop - hw.nWritten).toNat).length < fuel := by
            rw [List.length_drop]; omega
          rcases ih (bs.drop (hw.nextStop - hw.nWritten).toNat) _ _ _ _
              (t + (hw.nextStop - hw.nWritten)) hi2 hlen with hl | hr
          · left; exact hl
          · right
            obtain ⟨hw1, s1, m1, he, hm, hinv, hal⟩ := hr
            refine ⟨hw1, s1, m1, ?_, by omega, ?_, ?_⟩
            · rw [he]
              have : t + (hw.nextStop - hw.nWritten) +
                  ((bs.drop (hw.nextStop - hw.nWritten).toNat).length : Int)
                  = t + (bs.length : Int) := by
                rw [List.length_drop]; omega
              rw [this]
            · rw [List.append_assoc, List.take_append_drop] at hinv
              exact hinv
            · intro ha hs
              apply hal
              · simp only [prevStop]; exact hi.nextStop
              · simp only [prevStop]
                have := hi.nextStop
                omega

/-- Consecutive `Write` calls with well-behaved collaborators: either some call was stopped
by the callback, or every call forwarded its whole buffer and the invariant holds for the
concatenation of the buffers. -/
theorem writeAll_ideal_inv {stops : Nat → Int} (hp : Policy stops)
    (H : List Byte → List Byte) (v : Int → List Byte → Option Error) (fuel : Nat) :
    ∀ (ws : List (List Byte)) (hw : HashingWriter (List Byte)) (s : World)
      (data : List Byte) (m : Nat),
      Inv stops H data m hw s → (∀ bs ∈ ws, bs.length < fuel) →
      (∃ n e off d, Outcome.returned n (some e) ∈ (writeAll (ideal stops H v) fuel ws hw s).1 ∧
          v off d = some e) ∨
      ((writeAll (ideal stops H v) fuel ws hw s).1
          = ws.map (fun bs => Outcome.returned (bs.length : Int) none) ∧
        ∃ m1, m ≤ m1 ∧ Inv stops H (data ++ ws.flatten) m1
          (writeAll (ideal stops H v) fuel ws hw s).2.1
          (writeAll (ideal stops H v) fuel ws hw s).2.2) := by
  intro ws
  induction ws with
  | nil =>
    intro hw s data m hi _
    right
    exact ⟨rfl, m, le_refl _, by simpa [writeAll] using hi⟩
  | cons bs rest ih =>
    intro hw s data m hi hf
    have hbs : bs.length < fuel := hf bs (List.mem_cons_self _ _)
    have hrest : ∀ b ∈ rest, b.length < fuel := fun b hb => hf b (List.mem_cons_of_mem _ hb)
    rcases writeLoop_ideal_inv hp H v fuel bs hw s data m 0 hi hbs with hl | hr
    · obtain ⟨n, e, hw1, s1, he, off, d, hv⟩ := hl
      left
      refine ⟨n, e, off, d, ?_, hv⟩
      simp only [writeAll, HashingWriter.Write, he, List.mem_cons, true_or]
    · obtain ⟨hw1, s1, m1, he, hm, hinv, _⟩ := hr
      rcases ih hw1 s1 (data ++ bs) m1 hinv hrest with hl2 | hr2
      · obtain ⟨n, e, off, d, hmem, hv⟩ := hl2
        left
        refine ⟨n, e, off, d, ?_, hv⟩
        simp only [writeAll, HashingWriter.Write, he, List.mem_cons]
        right; exact hmem
      · obtain ⟨ho, m2, hm2, hinv2⟩ := hr2
        right
        refine ⟨?_, m2, by omega, ?_⟩
        · simp only [writeAll, HashingWriter.Write, he, ho, List.map_cons, zero_add]
        · simp only [writeAll, HashingWriter.Write, he, List.flatten_cons]
          rw [← List.append_assoc]; exact hinv2

/-- With a callback that never errors every `Write` forwards its whole buffer. -/
theorem afterWrites_accept {stops : Nat → Int} (hp : Policy stops)
    (H : List Byte → List Byte) (fuel : Nat) (ws : List (List Byte))
    (hf : ∀ bs ∈ ws, bs.length < fuel) :
    (afterWrites (ideal stops H accept) fuel ws World.initial).1
        = ws.map (fun bs => Outcome.returned (bs.length : Int) none) ∧
      ∃ m, Inv stops H ws.flatten m
        (afterWrites (ideal stops H accept) fuel ws World.initial).2.1
        (afterWrites (ideal stops H accept) fuel ws World.initial).2.2 := by
  rcases writeAll_ideal_inv hp H accept fuel ws _ _ [] 0 (Inv.fresh hp H accept) hf with hl | hr
  · obtain ⟨_, _, _, _, _, hv⟩ := hl
    simp [accept] at hv
  · obtain ⟨ho, m, _, hinv⟩ := hr
    exact ⟨ho, m, by simpa using hinv⟩

theorem chunkEvents_length (stops : Nat → Int) (H : List Byte → List Byte) (data : List Byte)
    (m : Nat) : (chunkEvents stops H data m).length = m := by
  simp [chunkEvents]

theorem chunkEvents_take (stops : Nat → Int) (H : List Byte → List Byte) (data : List Byte)
    {i m : Nat} (h : i ≤ m) :
    (chunkEvents stops H data m).take i = chunkEvents stops H data i := by
  simp [chunkEvents, ← List.map_take, List.take_range, Nat.min_eq_left h]

theorem lastOffset_chunkEvents (stops : Nat → Int) (H : List Byte → List Byte)
    (data : List Byte) (m : Nat) :
    lastOffset (chunkEvents stops H data m) = prevStop stops m := by
  cases m with
  | zero => simp [chunkEvents, lastOffset, prevStop]
  | succ k => simp [chunkEvents_succ, lastOffset, prevStop]

theorem chunkEvents_getElem? (stops : Nat → Int) (H : List Byte → List Byte)
    (data : List Byte) {i m : Nat} (h : i < m) :
    (chunkEvents stops H data m)[i]?
      = some (stops i, H (slice data (prevStop stops i) (stops i))) := by
  simp [chunkEvents, List.getElem?_map, List.getElem?_range h]

/-- What `Close` does from a state satisfying the invariant. -/
theorem close_ideal {stops : Nat → Int} {H : List Byte → List Byte}
    (v : Int → List Byte → Option Error) {data : List Byte} {m : Nat}
    {hw : HashingWriter (List Byte)} {s : World} (hi : Inv stops H data m hw s) :
    HashingWriter.Close (ideal stops H v) hw s =
      if hw.nSum ≠ hw.nWritten then
        (v (data.length : Int) (H (data.drop (prevStop stops m).toNat)),
          { s with events := s.events ++
              [((data.length : Int), H (data.drop (prevStop stops m).toNat))] })
      else (none, s) := by
  unfold HashingWriter.Close
  by_cases h : hw.nSum ≠ hw.nWritten
  · simp only [h, if_true, ideal, scripted, ← hi.acc, ← hi.nWritten]
    cases v hw.nWritten (H hw.h) <;> rfl
  · simp only [h, if_false]

/-- A whole session with well-behaved collaborators and a callback that never errors:
every `Write` returns its buffer length, `Close` returns nil, the sink holds the
concatenation of the buffers, and the events are those of the completed chunks followed,
when `nSum` differs from `nWritten`, by one event from `Close`. -/
theorem session_accept {stops : Nat → Int} (hp : Policy stops)
    (H : List Byte → List Byte) (fuel : Nat) (ws : List (List Byte))
    (hf : ∀ bs ∈ ws, bs.length < fuel) :
    (session (ideal stops H accept) fuel ws World.initial).1
        = ws.map (fun bs => Outcome.returned (bs.length : Int) none) ∧
      (session (ideal stops H accept) fuel ws World.initial).2.1 = none ∧
      (session (ideal stops H accept) fuel ws World.initial).2.2.sunk.flatten = ws.flatten ∧
      ∃ m, prevStop stops m ≤ (ws.flatten.length : Int) ∧
        (ws.flatten.length : Int) < stops m ∧
        ((session (ideal stops H accept) fuel ws World.initial).2.2.events
            = chunkEvents stops H ws.flatten m ∨
          (session (ideal stops H accept) fuel ws World.initial).2.2.events
            = chunkEvents stops H ws.flatten m ++
              [((ws.flatten.length : Int), H (ws.flatten.drop (prevStop stops m).toNat))]) := by
  obtain ⟨ho, m, hinv⟩ := afterWrites_accept hp H fuel ws hf
  have hc := close_ideal accept hinv
  have h1 := hinv.reached
  have h2 := hinv.below
  rw [hinv.nWritten] at h1
  rw [hinv.nWritten, hinv.nextStop] at h2
  by_cases h : (afterWrites (ideal stops H accept) fuel ws World.initial).2.1.nSum
      ≠ (afterWrites (ideal stops H accept) fuel ws World.initial).2.1.nWritten
  · rw [if_pos h] at hc
    refine ⟨?_, ?_, ?_, m, h1, h2, Or.inr ?_⟩
    · simpa only [session] using ho
    · simp only [session, hc, accept]
    · simp only [session, hc, hinv.sunk]
    · simp only [session, hc, hinv.events]
  · rw [if_neg h] at hc
    refine ⟨?_, ?_, ?_, m, h1, h2, Or.inl ?_⟩
    · simpa only [session] using ho
    · simp only [session, hc]
    · simp only [session, hc, hinv.sunk]
    · simp only [session, hc, hinv.events]

/-- C3 (digest correctness).  For every sequence of `Write` calls followed by `Close`, with
a positive strictly increasing boundary policy, a sink accepting every write in full and a
callback that never errors: every write returns its buffer length, `Close` returns nil,
the sink has received exactly the written bytes, and every emitted event `(off, d)`
carries `d = H` of the sink bytes from the previously emitted offset (0 for the first
event) up to `off`. -/
theorem digest_correctness (stops : Nat → Int) (H : List Byte → List Byte)
    (ws : List (List Byte)) (fuel : Nat) (hp : Policy stops)
    (hf : ∀ bs ∈ ws, bs.length < fuel) :
    (session (ideal stops H accept) fuel ws World.initial).1
        = ws.map (fun bs => Outcome.returned (bs.length : Int) none) ∧
      (session (ideal stops H accept) fuel ws World.initial).2.1 = none ∧
      (session (ideal stops H accept) fuel ws World.initial).2.2.sunk.flatten = ws.flatten ∧
      ∀ (i : Nat) (off : Int) (d : List Byte),
        (session (ideal stops H accept) fuel ws World.initial).2.2.events[i]? = some (off, d) →
        d = H (slice (session (ideal stops H accept) fuel ws World.initial).2.2.sunk.flatten
            (lastOffset
              ((session (ideal stops H accept) fuel ws World.initial).2.2.events.take i))
            off) := by
  obtain ⟨ho, hc, hs, m, hm1, hm2, hev⟩ := session_accept hp H fuel ws hf
  refine ⟨ho, hc, hs, ?_⟩
  intro i off d hget
  rw [hs]
  have hchunk : ∀ (extra : List (Int × List Byte)), i < m →
      (chunkEvents stops H ws.flatten m ++ extra)[i]? = some (off, d) →
      d = H (slice ws.flatten
        (lastOffset ((chunkEvents stops H ws.flatten m ++ extra).take i)) off) := by
    intro extra him hg
    rw [List.getElem?_append_left (by rw [chunkEvents_length]; exact him),
      chunkEvents_getElem? stops H ws.flatten him] at hg
    rw [List.take_append_of_le_length (by rw [chunkEvents_length]; omega),
      chunkEvents_take stops H ws.flatten (le_of_lt him), lastOffset_chunkEvents]
    simp only [Option.some.injEq, Prod.mk.injEq] at hg
    rw [← hg.1, ← hg.2]
  rcases hev with hev | hev
  · rw [hev] at hget ⊢
    have him : i < m := by
      have := (List.getElem?_eq_some_iff.mp hget).1
      rwa [chunkEvents_length] at this
    have := hchunk [] him (by simpa using hget)
    simpa using this
  · rw [hev] at hget ⊢
    by_cases him : i < m
    · exact hchunk _ him hget
    · have hlen := (List.getElem?_eq_some_iff.mp hget).1
      simp only [List.length_append, chunkEvents_length, List.length_singleton] at hlen
      have hi : i = m := by omega
      subst hi
      rw [List.getElem?_append_right (by rw [chunkEvents_length])] at hget
      simp only [chunkEvents_length, Nat.sub_self, List.getElem?_cons_zero, Option.some.injEq,
        Prod.mk.injEq] at hget
      rw [List.take_append_of_le_length (by rw [chunkEvents_length]),
        chunkEvents_take stops H ws.flatten (le_refl _), lastOffset_chunkEvents, ← hget.1,
        ← hget.2]
      congr 1
      unfold slice
      rw [List.take_of_length_le]
      rw [List.length_drop]
      have := hp.prevStop_nonneg i
      omega

theorem every_policy {k : Nat} (hk : 0 < k) : Policy (every (k : Int)) := by
  constructor
  · simp only [every]; push_cast; omega
  · intro i
    simp only [every]
    have : (0 : Int) < (k : Int) := by exact_mod_cast hk
    push_cast
    linarith

theorem prevStop_every (k : Int) (m : Nat) : prevStop (every k) m = (m : Int) * k := by
  cases m with
  | zero => simp [prevStop]
  | succ j => simp [prevStop, every]

/-- C2 (boundary completeness).  With boundaries `k, 2k, 3k, ...` (`k > 0`), a sink that
accepts everything and a callback that never errors, one `Write` of `bs` (length `L`)
followed by `Close` returns `(L, nil)` and nil and emits `L / k` events when `k` divides
`L` and `1 + L / k` events otherwise; event number `i` (from 0) below `L / k` has offset
`(i + 1) * k`, and when `k` does not divide `L` the trailing event has offset `L`. -/
theorem boundary_completeness (H : List Byte → List Byte) (bs : List Byte) (k fuel : Nat)
    (hk : 0 < k) (hf : bs.length < fuel) :
    (session (ideal (every (k : Int)) H accept) fuel [bs] World.initial).1
        = [Outcome.returned (bs.length : Int) none] ∧
      (session (ideal (every (k : Int)) H accept) fuel [bs] World.initial).2.1 = none ∧
      (session (ideal (every (k : Int)) H accept) fuel [bs] World.initial).2.2.events.length
        = (if bs.length % k = 0 then bs.length / k else 1 + bs.length / k) ∧
      (∀ i, i < bs.length / k →
        ((session (ideal (every (k : Int)) H accept) fuel [bs] World.initial).2.2.events[i]?).map
          Prod.fst = some (((i : Int) + 1) * (k : Int))) ∧
      (bs.length % k ≠ 0 →
        ((session (ideal (every (k : Int)) H accept) fuel [bs]
          World.initial).2.2.events[bs.length / k]?).map Prod.fst = some (bs.length : Int)) := by
  have hp := every_policy hk
  have hfresh := Inv.fresh hp H accept
  rcases writeLoop_ideal_inv hp H accept fuel bs _ _ [] 0 0 hfresh hf with hl | hr
  · obtain ⟨_, _, _, _, _, _, _, hv⟩ := hl
    simp [accept] at hv
  · obtain ⟨hw1, s1, m, he, _, hinv, hal⟩ := hr
    simp only [List.nil_append, zero_add] at he hinv
    have hsum : hw1.nSum = prevStop (every (k : Int)) m := by
      apply hal <;> simp [NewHashingWriter, prevStop]
    have h1 := hinv.reached
    have h2 := hinv.below
    rw [hinv.nextStop, hinv.nWritten] at h2
    rw [hinv.nWritten, prevStop_every] at h1
    rw [prevStop_every] at hsum
    simp only [every] at h2
    have h1n : m * k ≤ bs.length := by exact_mod_cast h1
    have h2n : bs.length < (m + 1) * k := by exact_mod_cast h2
    have hdiv : bs.length / k = m :=
      Nat.div_eq_of_lt_le (by rw [Nat.mul_comm] at h1n; rw [Nat.mul_comm]; exact h1n)
        (by rw [Nat.mul_comm] at h2n; rw [Nat.mul_comm]; exact h2n)
    have hmod := Nat.div_add_mod bs.length k
    rw [hdiv, Nat.mul_comm] at hmod
    have hc := close_ideal accept hinv
    have hses : session (ideal (every (k : Int)) H accept) fuel [bs] World.initial
        = ([Outcome.returned (bs.length : Int) none],
            (HashingWriter.Close (ideal (every (k : Int)) H accept) hw1 s1).1,
            (HashingWriter.Close (ideal (every (k : Int)) H accept) hw1 s1).2) := by
      simp only [session, afterWrites, writeAll, HashingWriter.Write, he]
    rw [hses, hdiv]
    have hoff : ∀ (extra : List (Int × List Byte)) (i : Nat), i < m →
        ((chunkEvents (every (k : Int)) H bs m ++ extra)[i]?).map Prod.fst
          = some (((i : Int) + 1) * (k : Int)) := by
      intro extra i hi
      rw [List.getElem?_append_left (by rw [chunkEvents_length]; exact hi),
        chunkEvents_getElem? _ H bs hi]
      simp [every]
    by_cases hmz : bs.length % k = 0
    · have hno : ¬ (hw1.nSum ≠ hw1.nWritten) := by
        rw [hsum, hinv.nWritten]
        have : (m : Int) * (k : Int) = (bs.length : Int) := by
          have : m * k = bs.length := by omega
          exact_mod_cast this
        simp [this]
      rw [if_neg hno] at hc
      rw [hc]
      refine ⟨rfl, rfl, ?_, ?_, fun h => absurd hmz h⟩
      · simp only [hinv.events, chunkEvents_length, hmz, if_true]
      · intro i hi
        have := hoff [] i hi
        simpa only [hinv.events, List.append_nil] using this
    · have hyes : hw1.nSum ≠ hw1.nWritten := by
        rw [hsum, hinv.nWritten]
        intro hcon
        have : m * k = bs.length := by exact_mod_cast hcon
        omega
      rw [if_pos hyes] at hc
      rw [hc]
      refine ⟨rfl, rfl, ?_, ?_, fun _ => ?_⟩
      · simp only [hinv.events, List.length_append, chunkEvents_length, List.length_singleton,
          hmz, if_false]
        omega
      · intro i hi
        simp only [hinv.events]
        exact hoff _ i hi
      · simp only [hinv.events]
        rw [List.getElem?_append_right (by rw [chunkEvents_length])]
        simp [chunkEvents_length]

/-- C6 (Close flushes the trailing partial chunk).  With a positive strictly increasing
boundary policy, a sink that accepts every write in full and any callback: after `Write`
calls that all returned nil, if bytes were written since the last completed boundary (the
offset of the last event, 0 when there is none, is below the total written), then `Close`
calls `onSum` exactly once, with the total number of bytes written and the digest of the
current accumulator, which is `H` of the bytes written since that boundary, and returns
what that call returned. -/
theorem close_flushes_trailing_chunk (stops : Nat → Int) (H : List Byte → List Byte)
    (v : Int → List Byte → Option Error) (ws : List (List Byte)) (fuel : Nat)
    (hp : Policy stops) (hf : ∀ bs ∈ ws, bs.length < fuel)
    (hok : ∀ o ∈ (afterWrites (ideal stops H v) fuel ws World.initial).1,
      ∃ n, o = Outcome.returned n none)
    (htail : lastOffset (afterWrites (ideal stops H v) fuel ws World.initial).2.2.events
      < (ws.flatten.length : Int)) :
    (ideal stops H v).hSum (afterWrites (ideal stops H v) fuel ws World.initial).2.1.h
        = H (ws.flatten.drop
            (lastOffset (afterWrites (ideal stops H v) fuel ws World.initial).2.2.events).toNat) ∧
      HashingWriter.Close (ideal stops H v)
          (afterWrites (ideal stops H v) fuel ws World.initial).2.1
          (afterWrites (ideal stops H v) fuel ws World.initial).2.2
        = (v (ws.flatten.length : Int)
              ((ideal stops H v).hSum
                (afterWrites (ideal stops H v) fuel ws World.initial).2.1.h),
            { (afterWrites (ideal stops H v) fuel ws World.initial).2.2 with
              events := (afterWrites (ideal stops H v) fuel ws World.initial).2.2.events ++
                [((ws.flatten.length : Int),
                  (ideal stops H v).hSum
                    (afterWrites (ideal stops H v) fuel ws World.initial).2.1.h)] }) := by
  rcases writeAll_ideal_inv hp H v fuel ws _ _ [] 0 (Inv.fresh hp H v) hf with hl | hr
  · obtain ⟨n, e, _, _, hmem, _⟩ := hl
    obtain ⟨n1, hn1⟩ := hok _ hmem
    simp at hn1
  · obtain ⟨_, m, _, hinv⟩ := hr
    simp only [List.nil_append] at hinv
    change Inv stops H ws.flatten m (afterWrites (ideal stops H v) fuel ws World.initial).2.1
      (afterWrites (ideal stops H v) fuel ws World.initial).2.2 at hinv
    have hlast : lastOffset (afterWrites (ideal stops H v) fuel ws World.initial).2.2.events
        = prevStop stops m := by
      rw [hinv.events, lastOffset_chunkEvents]
    rw [hlast] at htail ⊢
    have hacc : (ideal stops H v).hSum
        (afterWrites (ideal stops H v) fuel ws World.initial).2.1.h
        = H (ws.flatten.drop (prevStop stops m).toNat) := by
      rw [hinv.acc]; rfl
    refine ⟨hacc, ?_⟩
    have hne : (afterWrites (ideal stops H v) fuel ws World.initial).2.1.nSum
        ≠ (afterWrites (ideal stops H v) fuel ws World.initial).2.1.nWritten := by
      have := hinv.nSum
      rw [hinv.nWritten]
      omega
    rw [close_ideal v hinv, if_pos hne, hacc]

/-! ## Pass-through forwarding -/

/-- The loop of `Write` with a sink that accepts everything and a callback that never
errors, from a writer below its next boundary whose boundary source keeps increasing. -/
theorem writeLoop_ideal_runs (stops : Nat → Int) (H : List Byte → List Byte) :
    ∀ (fuel : Nat) (bs : List Byte) (hw : HashingWriter (List Byte)) (s : World) (t : Int),
      hw.nWritten < hw.nextStop → hw.nextStop < stops s.pulls →
      (∀ i, s.pulls ≤ i → stops i < stops (i + 1)) → bs.length < fuel →
      ∃ hw1 s1 runs, writeLoop (ideal stops H accept) fuel hw s bs t
          = (Outcome.returned (t + bs.length) none, hw1, s1) ∧
        s1.sunk = s.sunk ++ runs ∧ runs.flatten = bs ∧
        runsBounded stops hw.nextStop s.pulls hw.nWritten runs := by
  intro fuel
  induction fuel with
  | zero => intro bs hw s t _ _ _ hf; omega
  | succ fuel ih =>
    intro bs hw s t hb hn hmono hf
    by_cases hne : bs.length = 0
    · have hnil : bs = [] := List.length_eq_zero.mp hne
      subst hnil
      refine ⟨hw, s, [], ?_, by simp, rfl, trivial⟩
      rw [writeLoop_nil]; simp
    · have hpos : 0 < bs.length := Nat.pos_of_ne_zero hne
      by_cases hlt : (bs.length : Int) < hw.nextStop - hw.nWritten
      · obtain ⟨f, rfl⟩ : ∃ f, fuel = f + 1 := ⟨fuel - 1, by omega⟩
        refine ⟨_, _, [bs], writeLoop_ideal_short stops H accept f hw s bs t hpos hlt, rfl,
          by simp, ?_⟩
        have hneq : ¬ (hw.nWritten + (bs.length : Int) = hw.nextStop) := by omega
        simp only [runsBounded, hneq, if_false, and_true]
        omega
      · have hle : hw.nextStop - hw.nWritten ≤ (bs.length : Int) := by omega
        have hrun : (((bs.take (hw.nextStop - hw.nWritten).toNat).length : Nat) : Int)
            = hw.nextStop - hw.nWritten := by
          rw [List.length_take]; omega
        have hlen : (bs.drop (hw.nextStop - hw.nWritten).toNat).length < fuel := by
          rw [List.length_drop]; omega
        rw [writeLoop_ideal_reach stops H accept fuel hw s bs t (by omega) hle]
        simp only [accept]
        obtain ⟨hw1, s1, runs, he, hs, hfl, hrb⟩ :=
          ih (bs.drop (hw.nextStop - hw.nWritten).toNat)
            { nextStop := stops s.pulls, nWritten := hw.nextStop,
              nSum := hw.nSum + (hw.nextStop - hw.nWritten), h := [] }
            { sunk := s.sunk ++ [bs.take (hw.nextStop - hw.nWritten).toNat],
              events := s.events ++
                [(hw.nextStop, H (hw.h ++ bs.take (hw.nextStop - hw.nWritten).toNat))],
              pulls := s.pulls + 1 }
            (t + (hw.nextStop - hw.nWritten)) hn (hmono s.pulls (le_refl _))
            (fun i hi => hmono i (by simp only at hi; omega)) hlen
        refine ⟨hw1, s1, bs.take (hw.nextStop - hw.nWritten).toNat :: runs, ?_, ?_, ?_, ?_⟩
        · rw [he]
          have : t + (hw.nextStop - hw.nWritten) +
              ((bs.drop (hw.nextStop - hw.nWritten).toNat).length : Int)
              = t + (bs.length : Int) := by
            rw [List.length_drop]; omega
          rw [this]
        · rw [hs]; simp
        · rw [List.flatten_cons, hfl, List.take_append_drop]
        · have heq : hw.nWritten + (hw.nextStop - hw.nWritten) = hw.nextStop := by omega
          simp only [runsBounded, hrun, heq, if_true, le_refl, true_and]
          exact hrb

/-- C7 (pass-through forwarding).  From a writer below its next boundary
(`nWritten < nextStop`) whose boundary source yields strictly increasing values above
`nextStop`, with a sink that accepts every write in full, a hash that never fails and a
callback that never errors: `Write(bs)` returns `(len(bs), nil)`, and the slices handed to
the sink during the call concatenate to `bs`, each at most `nextStop - nWritten` long when
it is handed over. -/
theorem write_forwards_input (stops : Nat → Int) (H : List Byte → List Byte)
    (hw : HashingWriter (List Byte)) (s : World) (bs : List Byte) (fuel : Nat)
    (hb : hw.nWritten < hw.nextStop) (hn : hw.nextStop < stops s.pulls)
    (hmono : ∀ i, s.pulls ≤ i → stops i < stops (i + 1)) (hf : bs.length < fuel) :
    (HashingWriter.Write (ideal stops H accept) fuel hw s bs).1
        = Outcome.returned (bs.length : Int) none ∧
      ∃ runs, (HashingWriter.Write (ideal stops H accept) fuel hw s bs).2.2.sunk
          = s.sunk ++ runs ∧
        runs.flatten = bs ∧ runsBounded stops hw.nextStop s.pulls hw.nWritten runs := by
  obtain ⟨hw1, s1, runs, he, hs, hfl, hrb⟩ :=
    writeLoop_ideal_runs stops H fuel bs hw s 0 hb hn hmono hf
  simp only [HashingWriter.Write, he, zero_add, true_and]
  exact ⟨runs, hs, hfl, hrb⟩

/-! ## Errors of the collaborators -/

theorem TraceOK.prepend {out : Outcome} {calls : List Call} (pfx : List Call)
    (hp : ∀ x ∈ pfx, x.err = none) (h : TraceOK out calls) : TraceOK out (pfx ++ calls) := by
  rcases h with ⟨hall, hout⟩ | ⟨pre, x, n, e, hc, hpre, hx, ho⟩
  · left
    refine ⟨?_, hout⟩
    intro y hy
    rcases List.mem_append.mp hy with h1 | h1
    · exact hp y h1
    · exact hall y h1
  · right
    refine ⟨pfx ++ pre, x, n, e, by rw [hc, List.append_assoc], ?_, hx, ho⟩
    intro y hy
    rcases List.mem_append.mp hy with h1 | h1
    · exact hp y h1
    · exact hpre y h1

theorem TraceOK.quiet {out : Outcome} (calls : List Call) (hp : ∀ x ∈ calls, x.err = none)
    (ho : ∀ n e, out ≠ Outcome.returned n (some e)) : TraceOK out calls :=
  Or.inl ⟨hp, ho⟩

theorem TraceOK.failed (pre : List Call) (x : Call) (n : Int) (e : Error)
    (hp : ∀ y ∈ pre, y.err = none) (hx : x.err = some e) :
    TraceOK (Outcome.returned n (some e)) (pre ++ [x]) :=
  Or.inr ⟨pre, x, n, e, rfl, hp, hx, rfl⟩

theorem traced_wWrite (c : Collab σ η) (sl : σ × List Call) (p : List Byte) :
    (traced c).wWrite sl p = ((c.wWrite sl.1 p).1,
      ((c.wWrite sl.1 p).2, sl.2 ++ [Call.sink p (c.wWrite sl.1 p).1.1 (c.wWrite sl.1 p).1.2])) :=
  rfl

theorem traced_hWrite (c : Collab σ η) (sl : σ × List Call) (h : η) (p : List Byte) :
    (traced c).hWrite sl h p = ((c.hWrite sl.1 h p).1,
      ((c.hWrite sl.1 h p).2, sl.2 ++ [Call.hash p (c.hWrite sl.1 h p).1.1])) :=
  rfl

theorem traced_hSum (c : Collab σ η) (h : η) : (traced c).hSum h = c.hSum h := rfl

theorem traced_newHash (c : Collab σ η) (sl : σ × List Call) :
    (traced c).newHash sl = ((c.newHash sl.1).1, ((c.newHash sl.1).2, sl.2 ++ [Call.newHash])) :=
  rfl

theorem traced_iterStops (c : Collab σ η) (sl : σ × List Call) :
    (traced c).iterStops sl = ((c.iterStops sl.1).1,
      ((c.iterStops sl.1).2, sl.2 ++ [Call.iterStops (c.iterStops sl.1).1])) :=
  rfl

theorem traced_onSum (c : Collab σ η) (sl : σ × List Call) (off : Int) (d : List Byte) :
    (traced c).onSum sl off d = ((c.onSum sl.1 off d).1,
      ((c.onSum sl.1 off d).2, sl.2 ++ [Call.onSum off d (c.onSum sl.1 off d).1])) :=
  rfl

/-- The calls made by the loop of `Write`, for any collaborators and any state. -/
theorem writeLoop_trace (c : Collab σ η) :
    ∀ (fuel : Nat) (hw : HashingWriter η) (s : σ) (log : List Call) (bs : List Byte)
      (t : Int),
      ∃ calls, (writeLoop (traced c) fuel hw (s, log) bs t).2.2.2 = log ++ calls ∧
        TraceOK (writeLoop (traced c) fuel hw (s, log) bs t).1 calls := by
  intro fuel
  induction fuel with
  | zero =>
    intro hw s log bs t
    exact ⟨[], by simp [writeLoop], TraceOK.quiet [] (by simp) (by simp [writeLoop])⟩
  | succ fuel ih =>
    intro hw s log bs t
    rw [writeLoop]
    dsimp only
    generalize (if hw.nextStop - hw.nWritten > (bs.length : Int) then (bs.length : Int)
      else hw.nextStop - hw.nWritten) = l
    simp only [traced_wWrite, traced_hWrite, traced_hSum, traced_newHash, traced_iterStops,
      traced_onSum]
    generalize c.wWrite s (bs.take l.toNat) = w
    obtain ⟨⟨n, ew⟩, s1⟩ := w
    dsimp only
    generalize c.hWrite s1 hw.h (bs.take l.toNat) = hr
    obtain ⟨⟨eh, h1⟩, s2⟩ := hr
    dsimp only
    generalize c.onSum s2 (hw.nWritten + n) (c.hSum h1) = cb
    obtain ⟨ec, s3⟩ := cb
    dsimp only
    generalize c.iterStops s3 = it
    obtain ⟨stop, s4⟩ := it
    dsimp only
    generalize c.newHash s4 = nh
    obtain ⟨h2, s5⟩ := nh
    dsimp only
    by_cases h0 : 0 < bs.length
    swap
    · rw [if_neg h0]
      exact ⟨[], by simp, TraceOK.quiet [] (by simp) (by simp)⟩
    rw [if_pos h0]
    by_cases hl : l < 0
    · rw [if_pos hl]
      exact ⟨[], by simp, TraceOK.quiet [] (by simp) (by simp)⟩
    rw [if_neg hl]
    cases ew with
    | some e =>
      exact ⟨[Call.sink (bs.take l.toNat) n (some e)], rfl,
        TraceOK.failed [] _ _ e (by simp) rfl⟩
    | none =>
      dsimp only
      cases eh with
      | some e =>
        exact ⟨[Call.sink (bs.take l.toNat) n none, Call.hash (bs.take l.toNat) (some e)], by simp,
          TraceOK.failed [Call.sink (bs.take l.toNat) n none] _ _ e (by simp [Call.err]) rfl⟩
      | none =>
        dsimp only
        by_cases hb : hw.nWritten + n = hw.nextStop
        · rw [if_pos hb]
          cases ec with
          | some e =>
            exact ⟨[Call.sink (bs.take l.toNat) n none, Call.hash (bs.take l.toNat) none,
                Call.onSum (hw.nWritten + n) (c.hSum h1) (some e)], by simp,
              TraceOK.failed [Call.sink (bs.take l.toNat) n none, Call.hash (bs.take l.toNat) none] _ _ e
                (by simp [Call.err]) rfl⟩
          | none =>
            dsimp only
            by_cases hn : n < 0 ∨ (bs.length : Int) < n
            · rw [if_pos hn]
              exact ⟨[Call.sink (bs.take l.toNat) n none, Call.hash (bs.take l.toNat) none,
                Call.onSum (hw.nWritten + n) (c.hSum h1) none, Call.iterStops stop,
                Call.newHash], by simp, TraceOK.quiet _ (by simp [Call.err]) (by simp)⟩
            · rw [if_neg hn]
              obtain ⟨calls, hc, htr⟩ := ih
                { nextStop := stop, nWritten := hw.nWritten + n, nSum := hw.nSum + n, h := h2 }
                s5 (log ++ [Call.sink (bs.take l.toNat) n none] ++
                  [Call.hash (bs.take l.toNat) none] ++
                  [Call.onSum (hw.nWritten + n) (c.hSum h1) none] ++ [Call.iterStops stop] ++
                  [Call.newHash]) (bs.drop n.toNat) (t + n)
              refine ⟨[Call.sink (bs.take l.toNat) n none, Call.hash (bs.take l.toNat) none,
                Call.onSum (hw.nWritten + n) (c.hSum h1) none, Call.iterStops stop,
                Call.newHash] ++ calls, ?_, TraceOK.prepend _ (by simp [Call.err]) htr⟩
              rw [hc]; simp
        · rw [if_neg hb]
          by_cases hn : n < 0 ∨ (bs.length : Int) < n
          · rw [if_pos hn]
            exact ⟨[Call.sink (bs.take l.toNat) n none, Call.hash (bs.take l.toNat) none], by simp,
              TraceOK.quiet _ (by simp [Call.err]) (by simp)⟩
          · rw [if_neg hn]
            obtain ⟨calls, hc, htr⟩ := ih
              { nextStop := hw.nextStop, nWritten := hw.nWritten + n, nSum := hw.nSum, h := h1 }
              s2 (log ++ [Call.sink (bs.take l.toNat) n none] ++
                [Call.hash (bs.take l.toNat) none]) (bs.drop n.toNat) (t + n)
            refine ⟨[Call.sink (bs.take l.toNat) n none, Call.hash (bs.take l.toNat) none]
              ++ calls, ?_, TraceOK.prepend _ (by simp [Call.err]) htr⟩
            rw [hc]; simp

/-- C10 (error pass-through).  For arbitrary collaborators and any writer state, with
every collaborator call recorded: during `Write`, either no call returned an error and
`Write` did not return one, or the last call made returned an error `e`, no earlier call
did, and `Write` returned exactly `e`; `Close` either makes no call and returns nil, or
calls `onSum` once and returns exactly what that call returned. -/
theorem error_pass_through (c : Collab σ η) (fuel : Nat) (hw : HashingWriter η) (s : σ)
    (log : List Call) (bs : List Byte) :
    (∃ calls, (HashingWriter.Write (traced c) fuel hw (s, log) bs).2.2.2 = log ++ calls ∧
      (((∀ x ∈ calls, x.err = none) ∧
          ∀ n e, (HashingWriter.Write (traced c) fuel hw (s, log) bs).1
            ≠ Outcome.returned n (some e)) ∨
        ∃ pre x n e, calls = pre ++ [x] ∧ (∀ y ∈ pre, y.err = none) ∧ x.err = some e ∧
          (HashingWriter.Write (traced c) fuel hw (s, log) bs).1
            = Outcome.returned n (some e))) ∧
    (((HashingWriter.Close (traced c) hw (s, log)).2.2 = log ∧
        (HashingWriter.Close (traced c) hw (s, log)).1 = none) ∨
      (HashingWriter.Close (traced c) hw (s, log)).2.2 = log ++
        [Call.onSum hw.nWritten (c.hSum hw.h) (HashingWriter.Close (traced c) hw (s, log)).1]) := by
  constructor
  · obtain ⟨calls, hc, htr⟩ := writeLoop_trace c fuel hw s log bs 0
    exact ⟨calls, hc, htr⟩
  · unfold HashingWriter.Close
    by_cases h : hw.nSum ≠ hw.nWritten
    · right
      rw [if_pos h]
      simp only [traced_onSum, traced_hSum]
      cases (c.onSum s hw.nWritten (c.hSum hw.h)).1 <;> rfl
    · left
      rw [if_neg h]
      exact ⟨rfl, rfl⟩

/-! ## Splitting a chunk over several runs: `nSum` falls behind -/

/-- C1 (granularity independence fails).  With boundaries `2, 4, ...`, a sink accepting
everything and a callback that never errors, the two bytes `a, b` written in one `Write`
emit one event, and written in two `Write` calls emit two: `Close` adds an event with the
digest of no bytes. -/
theorem split_changes_events (H : List Byte → List Byte) (a b : Byte) :
    (session (ideal (every 2) H accept) 3 [[a, b]] World.initial).2.2.events
        = [(2, H [a, b])] ∧
      (session (ideal (every 2) H accept) 3 [[a], [b]] World.initial).2.2.events
        = [(2, H [a, b]), (2, H [])] := by
  constructor <;>
    simp [session, afterWrites, writeAll, HashingWriter.Write, HashingWriter.Close,
      NewHashingWriter, writeLoop, ideal, scripted, acceptAll, accept, every, World.initial]

/-- C4 (offset monotonicity fails).  Two one-byte `Write` calls and `Close` with boundaries
`2, 4, ...`: the callback receives the offsets `2, 2`. -/
theorem split_repeats_offset (H : List Byte → List Byte) (a b : Byte) :
    (session (ideal (every 2) H accept) 3 [[a], [b]] World.initial).1
        = [Outcome.returned 1 none, Outcome.returned 1 none] ∧
      (session (ideal (every 2) H accept) 3 [[a], [b]] World.initial).2.2.events.map Prod.fst
        = [2, 2] := by
  constructor <;>
    simp [session, afterWrites, writeAll, HashingWriter.Write, HashingWriter.Close,
      NewHashingWriter, writeLoop, ideal, scripted, acceptAll, accept, every, World.initial]

/-- C5 (Close on an exact boundary is not a no-op).  After two one-byte `Write` calls with
boundaries `2, 4, ...` the writer is on boundary 2, whose digest was emitted, yet `nSum`
is 1 and `Close` calls the callback once more, with the digest of no bytes. -/
theorem close_on_boundary_emits (H : List Byte → List Byte) (a b : Byte) :
    (afterWrites (ideal (every 2) H accept) 3 [[a], [b]] World.initial).2.2.events
        = [(2, H [a, b])] ∧
      (afterWrites (ideal (every 2) H accept) 3 [[a], [b]] World.initial).2.1.nWritten = 2 ∧
      (afterWrites (ideal (every 2) H accept) 3 [[a], [b]] World.initial).2.1.nSum = 1 ∧
      (HashingWriter.Close (ideal (every 2) H accept)
          (afterWrites (ideal (every 2) H accept) 3 [[a], [b]] World.initial).2.1
          (afterWrites (ideal (every 2) H accept) 3 [[a], [b]] World.initial).2.2).2.events
        = [(2, H [a, b]), (2, H [])] := by
  refine ⟨?_, ?_, ?_, ?_⟩ <;>
    simp [afterWrites, writeAll, HashingWriter.Write, HashingWriter.Close,
      NewHashingWriter, writeLoop, ideal, scripted, acceptAll, accept, every, World.initial]

/-! ## The count and the hash on the error paths -/

/-- C8 (returned count on error).  With boundaries `2, 4, ...`: when the callback refuses
the digest at offset 2, `Write` of three bytes returns count 0 although the sink reported
2 bytes written; when the sink takes one byte and reports an error, `Write` returns
count 0 although the sink reported 1 byte written. -/
theorem error_count_omits_run (H : List Byte → List Byte) (a b c : Byte) :
    HashingWriter.Write (traced (ideal (every 2) H (refuseAt 2))) 4
        (NewHashingWriter (traced (ideal (every 2) H (refuseAt 2))) (World.initial, [])).1
        (NewHashingWriter (traced (ideal (every 2) H (refuseAt 2))) (World.initial, [])).2
        [a, b, c]
      = (Outcome.returned 0 (some "bad sum"),
          { nextStop := 2, nWritten := 2, nSum := 0, h := [a, b] },
          { sunk := [[a, b]], events := [(2, H [a, b])], pulls := 1 },
          [Call.iterStops 2, Call.newHash, Call.sink [a, b] 2 none, Call.hash [a, b] none,
            Call.onSum 2 (H [a, b]) (some "bad sum")]) ∧
    HashingWriter.Write (traced (scripted (every 2) H accept failingSink)) 4
        (NewHashingWriter (traced (scripted (every 2) H accept failingSink))
          (World.initial, [])).1
        (NewHashingWriter (traced (scripted (every 2) H accept failingSink))
          (World.initial, [])).2
        [a, b, c]
      = (Outcome.returned 0 (some "short write"),
          { nextStop := 2, nWritten := 0, nSum := 0, h := [] },
          { sunk := [[a, b]], events := [], pulls := 1 },
          [Call.iterStops 2, Call.newHash, Call.sink [a, b] 1 (some "short write")]) := by
  constructor <;>
    simp [HashingWriter.Write, NewHashingWriter, writeLoop, traced, ideal, scripted,
      acceptAll, accept, refuseAt, failingSink, every, World.initial]

/-- C9 (hashing and forwarding diverge).  With boundaries `4, 8, ...`: a sink that takes
one byte of each write without error is handed `[a, b]` and then `[b]` and reports one byte
each time, while the hash absorbs `[a, b]` and then `[b]`, and `Write` returns `(2, nil)`;
a sink that takes one byte and reports an error leaves the hash and `nWritten` untouched. -/
theorem short_write_hash_mismatch (H : List Byte → List Byte) (a b : Byte) :
    HashingWriter.Write (traced (scripted (every 4) H accept oneByteSink)) 3
        (NewHashingWriter (traced (scripted (every 4) H accept oneByteSink))
          (World.initial, [])).1
        (NewHashingWriter (traced (scripted (every 4) H accept oneByteSink))
          (World.initial, [])).2
        [a, b]
      = (Outcome.returned 2 none,
          { nextStop := 4, nWritten := 2, nSum := 0, h := [a, b, b] },
          { sunk := [[a, b], [b]], events := [], pulls := 1 },
          [Call.iterStops 4, Call.newHash, Call.sink [a, b] 1 none, Call.hash [a, b] none,
            Call.sink [b] 1 none, Call.hash [b] none]) ∧
    HashingWriter.Write (traced (scripted (every 4) H accept failingSink)) 3
        (NewHashingWriter (traced (scripted (every 4) H accept failingSink))
          (World.initial, [])).1
        (NewHashingWriter (traced (scripted (every 4) H accept failingSink))
          (World.initial, [])).2
        [a, b]
      = (Outcome.returned 0 (some "short write"),
          { nextStop := 4, nWritten := 0, nSum := 0, h := [] },
          { sunk := [[a, b]], events := [], pulls := 1 },
          [Call.iterStops 4, Call.newHash, Call.sink [a, b] 1 (some "short write")]) := by
  constructor <;>
    simp [HashingWriter.Write, NewHashingWriter, writeLoop, traced, ideal, scripted,
      acceptAll, accept, oneByteSink, failingSink, every, World.initial]

/-! ## The theorems at concrete inputs -/

theorem length_flatten_replicate (l : List Byte) (n : Nat) :
    (List.replicate n l).flatten.length = n * l.length := by
  induction n with
  | zero => simp
  | succ k ih => rw [List.replicate_succ, List.flatten_cons, List.length_append, ih]; ring

theorem testData_length : testData.length = 851968 := by
  unfold testData
  rw [length_flatten_replicate]
  rfl

theorem every_two_policy : Policy (every 2) :=
  ⟨by decide, fun i => by simp only [every]; push_cast; omega⟩

/-- The scenario of the test file: 851968 bytes with a boundary every 7 bytes give 121710
events, the last one at offset 851968. -/
theorem boundary_completeness_witness :
    (session (ideal (every ((7 : Nat) : Int)) id accept) 851969 [testData]
        World.initial).2.2.events.length = 121710 ∧
      ((session (ideal (every ((7 : Nat) : Int)) id accept) 851969 [testData]
        World.initial).2.2.events[121709]?).map Prod.fst = some 851968 := by
  have h := boundary_completeness id testData 7 851969 (by decide)
    (by rw [testData_length]; decide)
  rw [testData_length] at h
  obtain ⟨_, _, hlen, _, hlast⟩ := h
  refine ⟨?_, ?_⟩
  · rw [hlen]; decide
  · have := hlast (by decide)
    rw [show 851968 / 7 = 121709 from by decide] at this
    exact this

/-- Two writes, `[1]` and `[2, 3]`, with a boundary every 2 bytes and the identity as
hash. -/
theorem digest_correctness_witness :
    (session (ideal (every 2) id accept) 3 [[1], [2, 3]] World.initial).1
        = [[1], [2, 3]].map (fun bs => Outcome.returned (bs.length : Int) none) ∧
      (session (ideal (every 2) id accept) 3 [[1], [2, 3]] World.initial).2.1 = none ∧
      (session (ideal (every 2) id accept) 3 [[1], [2, 3]] World.initial).2.2.sunk.flatten
        = [[1], [2, 3]].flatten ∧
      ∀ (i : Nat) (off : Int) (d : List Byte),
        (session (ideal (every 2) id accept) 3 [[1], [2, 3]] World.initial).2.2.events[i]?
          = some (off, d) →
        d = id (slice
            (session (ideal (every 2) id accept) 3 [[1], [2, 3]] World.initial).2.2.sunk.flatten
            (lastOffset
              ((session (ideal (every 2) id accept) 3 [[1], [2, 3]]
                World.initial).2.2.events.take i))
            off) :=
  digest_correctness (every 2) id [[1], [2, 3]] 3 every_two_policy (by decide)

/-- One write of `[1, 2, 3]` with a boundary every 2 bytes and a callback that refuses
offset 3: `Close` hands `(3, [3])` to the callback and returns its error. -/
theorem close_flushes_trailing_chunk_witness :
    HashingWriter.Close (ideal (every 2) id (refuseAt 3))
        (afterWrites (ideal (every 2) id (refuseAt 3)) 4 [[1, 2, 3]] World.initial).2.1
        (afterWrites (ideal (every 2) id (refuseAt 3)) 4 [[1, 2, 3]] World.initial).2.2
      = (some "bad sum",
          { sunk := [[1, 2], [3]], events := [(2, [1, 2]), (3, [3])], pulls := 2 }) := by
  have h := close_flushes_trailing_chunk (every 2) id (refuseAt 3) [[1, 2, 3]] 4
    every_two_policy (by decide)
    (by simp [afterWrites, writeAll, HashingWriter.Write, NewHashingWriter, writeLoop, ideal,
      scripted, acceptAll, refuseAt, every, World.initial])
    (by simp [afterWrites, writeAll, HashingWriter.Write, NewHashingWriter, writeLoop, ideal,
      scripted, acceptAll, refuseAt, every, World.initial, lastOffset])
  rw [h.2]
  simp [afterWrites, writeAll, HashingWriter.Write, NewHashingWriter, writeLoop, ideal,
    scripted, acceptAll, refuseAt, every, World.initial]

/-- A fresh writer with a boundary every 2 bytes and the input `[1, 2, 3]`. -/
theorem write_forwards_input_witness :
    (HashingWriter.Write (ideal (every 2) id accept) 4
        { nextStop := 2, nWritten := 0, nSum := 0, h := [] }
        { sunk := [], events := [], pulls := 1 } [1, 2, 3]).1
        = Outcome.returned (([1, 2, 3] : List Byte).length : Int) none ∧
      ∃ runs, (HashingWriter.Write (ideal (every 2) id accept) 4
          { nextStop := 2, nWritten := 0, nSum := 0, h := [] }
          { sunk := [], events := [], pulls := 1 } [1, 2, 3]).2.2.sunk
          = ([] : List (List Byte)) ++ runs ∧
        runs.flatten = [1, 2, 3] ∧ runsBounded (every 2) 2 1 0 runs :=
  write_forwards_input (every 2) id { nextStop := 2, nWritten := 0, nSum := 0, h := [] }
    { sunk := [], events := [], pulls := 1 } [1, 2, 3] 4 (by decide) (by decide)
    (fun i _ => by simp only [every]; push_cast; omega) (by decide)

/-! ## Empty writes, the counters on the error paths, concatenation -/

/-- C12 (empty write).  For any collaborators and any writer state, `Write` of an empty
byte sequence returns `(0, nil)` and leaves the writer and the world as they were; with
every collaborator call recorded, the record does not grow. -/
theorem empty_write_no_effect (c : Collab σ η) (fuel : Nat) (hw : HashingWriter η) (s : σ)
    (log : List Call) :
    HashingWriter.Write c (fuel + 1) hw s [] = (Outcome.returned 0 none, hw, s) ∧
      HashingWriter.Write (traced c) (fuel + 1) hw (s, log) []
        = (Outcome.returned 0 none, hw, (s, log)) := by
  constructor <;> simp [HashingWriter.Write, writeLoop]

/-- C15 (summed counter at a boundary).  With boundaries `2, 4, ...`, after `Write([a])`
and `Write([b])` the second write has reached boundary 2 and the callback has accepted
`(2, H [a, b])`, yet `nSum` is 1 while `nWritten` is 2. -/
theorem nSum_lags_behind (H : List Byte → List Byte) (a b : Byte) :
    afterWrites (ideal (every 2) H accept) 3 [[a], [b]] World.initial
      = ([Outcome.returned 1 none, Outcome.returned 1 none],
          { nextStop := 4, nWritten := 2, nSum := 1, h := [] },
          { sunk := [[a], [b]], events := [(2, H [a, b])], pulls := 2 }) := by
  simp [afterWrites, writeAll, HashingWriter.Write, NewHashingWriter, writeLoop, ideal,
    scripted, acceptAll, accept, every, World.initial]

/-- C16 (counters after an error).  With boundaries `2, 4, ...` and a sink that accepts the
first write and then takes one byte and reports an error, `Write([a, b, c, d])` returns
`(2, short write)`: the sink has reported 2 + 1 bytes written, `nWritten` is 2 and the
accumulator of the current chunk is empty. -/
theorem counters_miss_failed_write (H : List Byte → List Byte) (a b c d : Byte) :
    HashingWriter.Write (traced (scripted (every 2) H accept failSecond)) 5
        (NewHashingWriter (traced (scripted (every 2) H accept failSecond))
          (World.initial, [])).1
        (NewHashingWriter (traced (scripted (every 2) H accept failSecond))
          (World.initial, [])).2
        [a, b, c, d]
      = (Outcome.returned 2 (some "short write"),
          { nextStop := 4, nWritten := 2, nSum := 2, h := [] },
          { sunk := [[a, b], [c, d]], events := [(2, H [a, b])], pulls := 2 },
          [Call.iterStops 2, Call.newHash, Call.sink [a, b] 2 none, Call.hash [a, b] none,
            Call.onSum 2 (H [a, b]) none, Call.iterStops 4, Call.newHash,
            Call.sink [c, d] 1 (some "short write")]) := by
  simp [HashingWriter.Write, NewHashingWriter, writeLoop, traced, scripted, accept,
    failSecond, every, World.initial]

/-- Two states that satisfy the invariant for the same data agree on everything but
`nSum` and the cut of the sink slices. -/
theorem Inv.unique {stops : Nat → Int} (hp : Policy stops) {H : List Byte → List Byte}
    {data : List Byte} {m m' : Nat} {hw hw' : HashingWriter (List Byte)} {s s' : World}
    (h : Inv stops H data m hw s) (h' : Inv stops H data m' hw' s') :
    m = m' ∧ hw.nWritten = hw'.nWritten ∧ hw.nextStop = hw'.nextStop ∧ hw.h = hw'.h ∧
      s.events = s'.events ∧ s.sunk.flatten = s'.sunk.flatten ∧ s.pulls = s'.pulls := by
  have hm : m = m' := by
    rcases Nat.lt_trichotomy m m' with hlt | heq | hgt
    · have h1 := hp.stops_le_prevStop hlt
      have h2 := h'.reached
      have h3 := h.below
      rw [h.nextStop, h.nWritten] at h3
      rw [h'.nWritten] at h2
      omega
    · exact heq
    · have h1 := hp.stops_le_prevStop hgt
      have h2 := h.reached
      have h3 := h'.below
      rw [h'.nextStop, h'.nWritten] at h3
      rw [h.nWritten] at h2
      omega
  subst hm
  refine ⟨rfl, ?_, ?_, ?_, ?_, ?_, ?_⟩
  · rw [h.nWritten, h'.nWritten]
  · rw [h.nextStop, h'.nextStop]
  · rw [h.acc, h'.acc]
  · rw [h.events, h'.events]
  · rw [h.sunk, h'.sunk]
  · rw [h.pulls, h'.pulls]

/-- C18 (Write composes over concatenation).  With a positive strictly increasing boundary
policy, a sink that accepts every write in full and a callback that never errors, after
any earlier writes: `Write(a)` then `Write(b)` return `len(a)` and `len(b)`, one
`Write(a ++ b)` returns `len(a) + len(b)`, and both leave the same bytes in the sink, the
same callback events, and the same `nWritten`, `nextStop` and accumulator contents. -/
theorem write_concat (stops : Nat → Int) (H : List Byte → List Byte)
    (ws0 : List (List Byte)) (a b : List Byte) (fuel : Nat) (hp : Policy stops)
    (hf0 : ∀ bs ∈ ws0, bs.length < fuel) (hf : a.length + b.length < fuel) :
    (afterWrites (ideal stops H accept) fuel (ws0 ++ [a, b]) World.initial).1
        = ws0.map (fun bs => Outcome.returned (bs.length : Int) none) ++
          [Outcome.returned (a.length : Int) none, Outcome.returned (b.length : Int) none] ∧
      (afterWrites (ideal stops H accept) fuel (ws0 ++ [a ++ b]) World.initial).1
        = ws0.map (fun bs => Outcome.returned (bs.length : Int) none) ++
          [Outcome.returned ((a.length : Int) + (b.length : Int)) none] ∧
      (afterWrites (ideal stops H accept) fuel (ws0 ++ [a, b]) World.initial).2.2.sunk.flatten
        = (afterWrites (ideal stops H accept) fuel (ws0 ++ [a ++ b])
            World.initial).2.2.sunk.flatten ∧
      (afterWrites (ideal stops H accept) fuel (ws0 ++ [a, b]) World.initial).2.2.events
        = (afterWrites (ideal stops H accept) fuel (ws0 ++ [a ++ b]) World.initial).2.2.events ∧
      (afterWrites (ideal stops H accept) fuel (ws0 ++ [a, b]) World.initial).2.1.nWritten
        = (afterWrites (ideal stops H accept) fuel (ws0 ++ [a ++ b]) World.initial).2.1.nWritten ∧
      (afterWrites (ideal stops H accept) fuel (ws0 ++ [a, b]) World.initial).2.1.nextStop
        = (afterWrites (ideal stops H accept) fuel (ws0 ++ [a ++ b]) World.initial).2.1.nextStop ∧
      (afterWrites (ideal stops H accept) fuel (ws0 ++ [a, b]) World.initial).2.1.h
        = (afterWrites (ideal stops H accept) fuel (ws0 ++ [a ++ b]) World.initial).2.1.h := by
  have hf2 : ∀ bs ∈ ws0 ++ [a, b], bs.length < fuel := by
    intro bs hbs
    simp only [List.mem_append, List.mem_cons, List.mem_singleton, List.not_mem_nil,
      or_false] at hbs
    rcases hbs with h | rfl | rfl
    · exact hf0 bs h
    · omega
    · omega
  have hf1 : ∀ bs ∈ ws0 ++ [a ++ b], bs.length < fuel := by
    intro bs hbs
    simp only [List.mem_append, List.mem_singleton] at hbs
    rcases hbs with h | rfl
    · exact hf0 bs h
    · rw [List.length_append]; exact hf
  obtain ⟨ho2, m2, hi2⟩ := afterWrites_accept hp H fuel (ws0 ++ [a, b]) hf2
  obtain ⟨ho1, m1, hi1⟩ := afterWrites_accept hp H fuel (ws0 ++ [a ++ b]) hf1
  have hfl : (ws0 ++ [a, b]).flatten = (ws0 ++ [a ++ b]).flatten := by simp
  rw [hfl] at hi2
  obtain ⟨_, h1, h2, h3, h4, h5, _⟩ := hi2.unique hp hi1
  refine ⟨?_, ?_, h5, h4, h1, h2, h3⟩
  · rw [ho2]; simp
  · rw [ho1]; simp

/-! ## Termination and progress -/

/-- The loop of `Write` with a sink that accepts everything and any callback, from a writer
below its next boundary whose boundary source keeps increasing: with more fuel than bytes
it returns, every slice handed to the sink is non-empty and there are at most `len(bs)`
of them. -/
theorem writeLoop_ideal_progress (stops : Nat → Int) (H : List Byte → List Byte)
    (v : Int → List Byte → Option Error) :
    ∀ (fuel : Nat) (bs : List Byte) (hw : HashingWriter (List Byte)) (s : World) (t : Int),
      hw.nWritten < hw.nextStop → hw.nextStop < stops s.pulls →
      (∀ i, s.pulls ≤ i → stops i < stops (i + 1)) → bs.length < fuel →
      ∃ n err hw1 s1 runs, writeLoop (ideal stops H v) fuel hw s bs t
          = (Outcome.returned n err, hw1, s1) ∧
        s1.sunk = s.sunk ++ runs ∧ (∀ r ∈ runs, 1 ≤ r.length) ∧ runs.length ≤ bs.length := by
  intro fuel
  induction fuel with
  | zero => intro bs hw s t _ _ _ hf; omega
  | succ fuel ih =>
    intro bs hw s t hb hn hmono hf
    by_cases hne : bs.length = 0
    · have hnil : bs = [] := List.length_eq_zero.mp hne
      subst hnil
      exact ⟨t, none, hw, s, [], writeLoop_nil _ fuel hw s t, by simp, by simp, by simp⟩
    · have hpos : 0 < bs.length := Nat.pos_of_ne_zero hne
      by_cases hlt : (bs.length : Int) < hw.nextStop - hw.nWritten
      · obtain ⟨f, rfl⟩ : ∃ f, fuel = f + 1 := ⟨fuel - 1, by omega⟩
        refine ⟨_, _, _, _, [bs], writeLoop_ideal_short stops H v f hw s bs t hpos hlt, rfl,
          ?_, ?_⟩
        · intro r hr
          rw [List.mem_singleton] at hr
          subst hr
          exact hpos
        · simpa using hpos
      · have hle : hw.nextStop - hw.nWritten ≤ (bs.length : Int) := by omega
        have hrun : (((bs.take (hw.nextStop - hw.nWritten).toNat).length : Nat) : Int)
            = hw.nextStop - hw.nWritten := by
          rw [List.length_take]; omega
        have hlen : (bs.drop (hw.nextStop - hw.nWritten).toNat).length < fuel := by
          rw [List.length_drop]; omega
        rw [writeLoop_ideal_reach stops H v fuel hw s bs t (by omega) hle]
        cases hv : v hw.nextStop (H (hw.h ++ bs.take (hw.nextStop - hw.nWritten).toNat)) with
        | some e =>
          refine ⟨t, some e, _, _, [bs.take (hw.nextStop - hw.nWritten).toNat], rfl, rfl,
            ?_, ?_⟩
          · intro r hr
            rw [List.mem_singleton] at hr
            subst hr
            omega
          · simpa using hpos
        | none =>
          simp only
          obtain ⟨n, err, hw1, s1, runs, he, hs, hr1, hr2⟩ :=
            ih (bs.drop (hw.nextStop - hw.nWritten).toNat)
              { nextStop := stops s.pulls, nWritten := hw.nextStop,
                nSum := hw.nSum + (hw.nextStop - hw.nWritten), h := [] }
              { sunk := s.sunk ++ [bs.take (hw.nextStop - hw.nWritten).toNat],
                events := s.events ++
                  [(hw.nextStop, H (hw.h ++ bs.take (hw.nextStop - hw.nWritten).toNat))],
                pulls := s.pulls + 1 }
              (t + (hw.nextStop - hw.nWritten)) hn (hmono s.pulls (le_refl _))
              (fun i hi => hmono i (by simp only at hi; omega)) hlen
          refine ⟨n, err, hw1, s1, bs.take (hw.nextStop - hw.nWritten).toNat :: runs, he,
            ?_, ?_, ?_⟩
          · rw [hs]; simp
          · intro r hr
            rcases List.mem_cons.mp hr with h1 | h1
            · subst h1; omega
            · exact hr1 r h1
          · rw [List.length_drop] at hr2
            simp only [List.length_cons]
            omega

/-- C17 (termination and progress of Write).  From a writer below its next boundary whose
boundary source yields strictly increasing values above `nextStop`, with a sink that accepts
every run in full and any callback: for every input `bs`, `Write` returns with `len(bs) + 1`
units of fuel (at most `len(bs)` iterations), every slice handed to the sink has length at
least 1, and there are at most `len(bs)` of them. -/
theorem write_terminates (stops : Nat → Int) (H : List Byte → List Byte)
    (v : Int → List Byte → Option Error) (hw : HashingWriter (List Byte)) (s : World)
    (bs : List Byte) (fuel : Nat)
    (hb : hw.nWritten < hw.nextStop) (hn : hw.nextStop < stops s.pulls)
    (hmono : ∀ i, s.pulls ≤ i → stops i < stops (i + 1)) (hf : bs.length < fuel) :
    (∃ n err, (HashingWriter.Write (ideal stops H v) fuel hw s bs).1
        = Outcome.returned n err) ∧
      ∃ runs, (HashingWriter.Write (ideal stops H v) fuel hw s bs).2.2.sunk = s.sunk ++ runs ∧
        (∀ r ∈ runs, 1 ≤ r.length) ∧ runs.length ≤ bs.length := by
  obtain ⟨n, err, hw1, s1, runs, he, hs, hr1, hr2⟩ :=
    writeLoop_ideal_progress stops H v fuel bs hw s 0 hb hn hmono hf
  simp only [HashingWriter.Write, he]
  exact ⟨⟨n, err, rfl⟩, runs, hs, hr1, hr2⟩

/-- A boundary every 2 bytes, a callback that refuses offset 4, the input `[1, 2, 3]`. -/
theorem write_terminates_witness :
    (∃ n err, (HashingWriter.Write (ideal (every 2) id (refuseAt 4)) 4
        { nextStop := 2, nWritten := 0, nSum := 0, h := [] }
        { sunk := [], events := [], pulls := 1 } [1, 2, 3]).1 = Outcome.returned n err) ∧
      ∃ runs, (HashingWriter.Write (ideal (every 2) id (refuseAt 4)) 4
          { nextStop := 2, nWritten := 0, nSum := 0, h := [] }
          { sunk := [], events := [], pulls := 1 } [1, 2, 3]).2.2.sunk
          = ([] : List (List Byte)) ++ runs ∧
        (∀ r ∈ runs, 1 ≤ r.length) ∧ runs.length ≤ ([1, 2, 3] : List Byte).length :=
  write_terminates (every 2) id (refuseAt 4) { nextStop := 2, nWritten := 0, nSum := 0, h := [] }
    { sunk := [], events := [], pulls := 1 } [1, 2, 3] 4 (by decide) (by decide)
    (fun i _ => by simp only [every]; push_cast; omega) (by decide)

/-! ## The counters stay in order -/

theorem scripted_wWrite (stops : Nat → Int) (H : List Byte → List Byte)
    (v : Int → List Byte → Option Error)
    (sr : List (List Byte) → List Byte → Int × Option Error) (s : World) (p : List Byte) :
    (scripted stops H v sr).wWrite s p = (sr s.sunk p, { s with sunk := s.sunk ++ [p] }) :=
  rfl

theorem scripted_hWrite (stops : Nat → Int) (H : List Byte → List Byte)
    (v : Int → List Byte → Option Error)
    (sr : List (List Byte) → List Byte → Int × Option Error) (s : World)
    (h p : List Byte) : (scripted stops H v sr).hWrite s h p = ((none, h ++ p), s) :=
  rfl

theorem scripted_hSum (stops : Nat → Int) (H : List Byte → List Byte)
    (v : Int → List Byte → Option Error)
    (sr : List (List Byte) → List Byte → Int × Option Error) (h : List Byte) :
    (scripted stops H v sr).hSum h = H h :=
  rfl

theorem scripted_newHash (stops : Nat → Int) (H : List Byte → List Byte)
    (v : Int → List Byte → Option Error)
    (sr : List (List Byte) → List Byte → Int × Option Error) (s : World) :
    (scripted stops H v sr).newHash s = ([], s) :=
  rfl

theorem scripted_iterStops (stops : Nat → Int) (H : List Byte → List Byte)
    (v : Int → List Byte → Option Error)
    (sr : List (List Byte) → List Byte → Int × Option Error) (s : World) :
    (scripted stops H v sr).iterStops s = (stops s.pulls, { s with pulls := s.pulls + 1 }) :=
  rfl

theorem scripted_onSum (stops : Nat → Int) (H : List Byte → List Byte)
    (v : Int → List Byte → Option Error)
    (sr : List (List Byte) → List Byte → Int × Option Error) (s : World) (off : Int)
    (d : List Byte) :
    (scripted stops H v sr).onSum s off d
      = (v off d, { s with events := s.events ++ [(off, d)] }) :=
  rfl

/-- The loop of `Write` keeps the counters in order and does not panic, whatever the
callback answers and whatever count between 0 and the slice length the sink reports. -/
theorem writeLoop_counters {stops : Nat → Int} (hp : Policy stops) (H : List Byte → List Byte)
    (v : Int → List Byte → Option Error)
    (sr : List (List Byte) → List Byte → Int × Option Error)
    (hsr : ∀ earlier p, 0 ≤ (sr earlier p).1 ∧ (sr earlier p).1 ≤ (p.length : Int)) :
    ∀ (fuel : Nat) (hw : HashingWriter (List Byte)) (s : World) (bs : List Byte) (t : Int),
      Counters stops hw s →
      Counters stops (writeLoop (scripted stops H v sr) fuel hw s bs t).2.1
          (writeLoop (scripted stops H v sr) fuel hw s bs t).2.2 ∧
        (writeLoop (scripted stops H v sr) fuel hw s bs t).1 ≠ Outcome.panicked := by
  intro fuel
  induction fuel with
  | zero =>
    intro hw s bs t hc
    exact ⟨by simpa [writeLoop] using hc, by simp [writeLoop]⟩
  | succ fuel ih =>
    intro hw s bs t hc
    obtain ⟨h1, h2, m, hm, hs⟩ := hc
    rw [writeLoop]
    dsimp only
    simp only [scripted_wWrite, scripted_hWrite, scripted_hSum, scripted_newHash,
      scripted_iterStops, scripted_onSum]
    by_cases h0 : 0 < bs.length
    swap
    · rw [if_neg h0]
      exact ⟨⟨h1, h2, m, hm, hs⟩, by simp⟩
    rw [if_pos h0]
    generalize hl : (if hw.nextStop - hw.nWritten > (bs.length : Int) then (bs.length : Int)
      else hw.nextStop - hw.nWritten) = l
    have hl0 : 0 ≤ l := by rw [← hl]; split <;> omega
    have hl1 : l ≤ hw.nextStop - hw.nWritten := by rw [← hl]; split <;> omega
    have hl2 : l ≤ (bs.length : Int) := by rw [← hl]; split <;> omega
    rw [if_neg (by omega)]
    have hlen : (((bs.take l.toNat).length : Nat) : Int) = l := by
      rw [List.length_take]; omega
    have hn := hsr s.sunk (bs.take l.toNat)
    rw [hlen] at hn
    generalize sr s.sunk (bs.take l.toNat) = w at hn ⊢
    obtain ⟨n, ew⟩ := w
    simp only at hn
    cases ew with
    | some e => exact ⟨⟨h1, h2, m, hm, hs⟩, by simp⟩
    | none =>
      dsimp only
      have hnp : ¬ (n < 0 ∨ (bs.length : Int) < n) := by omega
      by_cases hb : hw.nWritten + n = hw.nextStop
      · rw [if_pos hb]
        cases v (hw.nWritten + n) (H (hw.h ++ bs.take l.toNat)) with
        | some e => exact ⟨⟨by simp only; omega, by simp only; omega, m, hm, hs⟩, by simp⟩
        | none =>
          dsimp only
          rw [if_neg hnp]
          apply ih
          refine ⟨by simp only; omega, ?_, m + 1, by simp only; omega, by simp only [hm]⟩
          simp only [hm]
          have := hp.2 m
          omega
      · rw [if_neg hb, if_neg hnp]
        apply ih
        exact ⟨by simp only; omega, by simp only; omega, m, hm, hs⟩

theorem writeAll_counters {stops : Nat → Int} (hp : Policy stops) (H : List Byte → List Byte)
    (v : Int → List Byte → Option Error)
    (sr : List (List Byte) → List Byte → Int × Option Error)
    (hsr : ∀ earlier p, 0 ≤ (sr earlier p).1 ∧ (sr earlier p).1 ≤ (p.length : Int))
    (fuel : Nat) :
    ∀ (ws : List (List Byte)) (hw : HashingWriter (List Byte)) (s : World),
      Counters stops hw s →
      Counters stops (writeAll (scripted stops H v sr) fuel ws hw s).2.1
          (writeAll (scripted stops H v sr) fuel ws hw s).2.2 ∧
        ∀ o ∈ (writeAll (scripted stops H v sr) fuel ws hw s).1, o ≠ Outcome.panicked := by
  intro ws
  induction ws with
  | nil => intro hw s hc; exact ⟨by simpa [writeAll] using hc, by simp [writeAll]⟩
  | cons bs rest ih =>
    intro hw s hc
    obtain ⟨h1, h2⟩ := writeLoop_counters hp H v sr hsr fuel hw s bs 0 hc
    obtain ⟨h3, h4⟩ := ih _ _ h1
    refine ⟨by simpa only [writeAll, HashingWriter.Write] using h3, ?_⟩
    intro o ho
    simp only [writeAll, HashingWriter.Write, List.mem_cons] at ho
    rcases ho with rfl | ho
    · exact h2
    · exact h4 o ho

/-- C14 (counter invariant).  A writer made by `NewHashingWriter` with a positive strictly
increasing boundary policy (so every boundary pulled is above `nWritten`), any callback, and
a sink that reports, with or without an error, a count between 0 and the length of the
slice it was given: after any sequence of `Write` calls, with any fuel, no call has panicked
and `nSum ≤ nWritten ≤ nextStop`.  `Close` assigns no field of the writer. -/
theorem counter_invariant (stops : Nat → Int) (H : List Byte → List Byte)
    (v : Int → List Byte → Option Error)
    (sr : List (List Byte) → List Byte → Int × Option Error)
    (ws : List (List Byte)) (fuel : Nat) (hp : Policy stops)
    (hsr : ∀ earlier p, 0 ≤ (sr earlier p).1 ∧ (sr earlier p).1 ≤ (p.length : Int)) :
    (afterWrites (scripted stops H v sr) fuel ws World.initial).2.1.nSum
        ≤ (afterWrites (scripted stops H v sr) fuel ws World.initial).2.1.nWritten ∧
      (afterWrites (scripted stops H v sr) fuel ws World.initial).2.1.nWritten
        ≤ (afterWrites (scripted stops H v sr) fuel ws World.initial).2.1.nextStop ∧
      ∀ o ∈ (afterWrites (scripted stops H v sr) fuel ws World.initial).1,
        o ≠ Outcome.panicked := by
  have h0 : Counters stops (NewHashingWriter (scripted stops H v sr) World.initial).1
      (NewHashingWriter (scripted stops H v sr) World.initial).2 := by
    refine ⟨le_refl _, ?_, 0, rfl, rfl⟩
    simp only [NewHashingWriter, scripted_iterStops, World.initial]
    exact le_of_lt hp.1
  obtain ⟨⟨h1, h2, _⟩, h3⟩ := writeAll_counters hp H v sr hsr fuel ws _ _ h0
  exact ⟨h1, h2, h3⟩

/-- Three writes with a boundary every 2 bytes, a callback that refuses offset 2 and a sink
that takes one byte at a time. -/
theorem counter_invariant_witness :
    (afterWrites (scripted (every 2) id (refuseAt 2) byteAtATime) 5 [[1, 2, 3], [], [4]]
        World.initial).2.1.nSum
        ≤ (afterWrites (scripted (every 2) id (refuseAt 2) byteAtATime) 5 [[1, 2, 3], [], [4]]
          World.initial).2.1.nWritten ∧
      (afterWrites (scripted (every 2) id (refuseAt 2) byteAtATime) 5 [[1, 2, 3], [], [4]]
        World.initial).2.1.nWritten
        ≤ (afterWrites (scripted (every 2) id (refuseAt 2) byteAtATime) 5 [[1, 2, 3], [], [4]]
          World.initial).2.1.nextStop ∧
      ∀ o ∈ (afterWrites (scripted (every 2) id (refuseAt 2) byteAtATime) 5
          [[1, 2, 3], [], [4]] World.initial).1,
        o ≠ Outcome.panicked :=
  counter_invariant (every 2) id (refuseAt 2) byteAtATime [[1, 2, 3], [], [4]] 5
    every_two_policy (fun _ p => by
      simp only [byteAtATime]
      split <;> omega)

/-! ## Calls of the boundary source -/

theorem pullsFollowSums_count :
    ∀ (calls : List Call) (expect : Bool), pullsFollowSums expect calls = true →
      calls.countP Call.isPull = calls.countP Call.isOkSum + (if expect then 1 else 0) := by
  intro calls
  induction calls with
  | nil => intro expect h; cases expect <;> simp_all [pullsFollowSums]
  | cons c rest ih =>
    intro expect h
    cases c with
    | sink p n e =>
      simp only [pullsFollowSums, Bool.and_eq_true, Bool.not_eq_true'] at h
      have := ih false h.2
      simp_all [Call.isPull, Call.isOkSum]
    | hash p e =>
      simp only [pullsFollowSums, Bool.and_eq_true, Bool.not_eq_true'] at h
      have := ih false h.2
      simp_all [Call.isPull, Call.isOkSum]
    | onSum off d e =>
      cases e with
      | none =>
        simp only [pullsFollowSums, Bool.and_eq_true, Bool.not_eq_true'] at h
        have := ih true h.2
        simp_all [Call.isPull, Call.isOkSum]
      | some e =>
        simp only [pullsFollowSums, Bool.and_eq_true, Bool.not_eq_true'] at h
        have := ih false h.2
        simp_all [Call.isPull, Call.isOkSum]
    | iterStops stop =>
      simp only [pullsFollowSums, Bool.and_eq_true] at h
      have := ih false h.2
      simp_all [Call.isPull, Call.isOkSum]
    | newHash =>
      simp only [pullsFollowSums, Bool.and_eq_true, Bool.not_eq_true'] at h
      have := ih false h.2
      simp_all [Call.isPull, Call.isOkSum]

/-- The calls made by the loop of `Write`: the boundary source is called right after each
successful callback call and at no other time. -/
theorem writeLoop_pulls (c : Collab σ η) :
    ∀ (fuel : Nat) (hw : HashingWriter η) (s : σ) (log : List Call) (bs : List Byte)
      (t : Int),
      ∃ calls, (writeLoop (traced c) fuel hw (s, log) bs t).2.2.2 = log ++ calls ∧
        pullsFollowSums false calls = true := by
  intro fuel
  induction fuel with
  | zero =>
    intro hw s log bs t
    exact ⟨[], by simp [writeLoop], rfl⟩
  | succ fuel ih =>
    intro hw s log bs t
    rw [writeLoop]
    dsimp only
    generalize (if hw.nextStop - hw.nWritten > (bs.length : Int) then (bs.length : Int)
      else hw.nextStop - hw.nWritten) = l
    simp only [traced_wWrite, traced_hWrite, traced_hSum, traced_newHash, traced_iterStops,
      traced_onSum]
    generalize c.wWrite s (bs.take l.toNat) = w
    obtain ⟨⟨n, ew⟩, s1⟩ := w
    dsimp only
    generalize c.hWrite s1 hw.h (bs.take l.toNat) = hr
    obtain ⟨⟨eh, h1⟩, s2⟩ := hr
    dsimp only
    generalize c.onSum s2 (hw.nWritten + n) (c.hSum h1) = cb
    obtain ⟨ec, s3⟩ := cb
    dsimp only
    generalize c.iterStops s3 = it
    obtain ⟨stop, s4⟩ := it
    dsimp only
    generalize c.newHash s4 = nh
    obtain ⟨h2, s5⟩ := nh
    dsimp only
    by_cases h0 : 0 < bs.length
    swap
    · rw [if_neg h0]
      exact ⟨[], by simp, rfl⟩
    rw [if_pos h0]
    by_cases hl : l < 0
    · rw [if_pos hl]
      exact ⟨[], by simp, rfl⟩
    rw [if_neg hl]
    cases ew with
    | some e => exact ⟨[Call.sink (bs.take l.toNat) n (some e)], rfl, rfl⟩
    | none =>
      dsimp only
      cases eh with
      | some e =>
        exact ⟨[Call.sink (bs.take l.toNat) n none, Call.hash (bs.take l.toNat) (some e)],
          by simp, rfl⟩
      | none =>
        dsimp only
        by_cases hb : hw.nWritten + n = hw.nextStop
        · rw [if_pos hb]
          cases ec with
          | some e =>
            exact ⟨[Call.sink (bs.take l.toNat) n none, Call.hash (bs.take l.toNat) none,
              Call.onSum (hw.nWritten + n) (c.hSum h1) (some e)], by simp, rfl⟩
          | none =>
            dsimp only
            by_cases hn : n < 0 ∨ (bs.length : Int) < n
            · rw [if_pos hn]
              exact ⟨[Call.sink (bs.take l.toNat) n none, Call.hash (bs.take l.toNat) none,
                Call.onSum (hw.nWritten + n) (c.hSum h1) none, Call.iterStops stop,
                Call.newHash], by simp, rfl⟩
            · rw [if_neg hn]
              obtain ⟨calls, hc, htr⟩ := ih
                { nextStop := stop, nWritten := hw.nWritten + n, nSum := hw.nSum + n, h := h2 }
                s5 (log ++ [Call.sink (bs.take l.toNat) n none] ++
                  [Call.hash (bs.take l.toNat) none] ++
                  [Call.onSum (hw.nWritten + n) (c.hSum h1) none] ++ [Call.iterStops stop] ++
                  [Call.newHash]) (bs.drop n.toNat) (t + n)
              refine ⟨[Call.sink (bs.take l.toNat) n none, Call.hash (bs.take l.toNat) none,
                Call.onSum (hw.nWritten + n) (c.hSum h1) none, Call.iterStops stop,
                Call.newHash] ++ calls, ?_, ?_⟩
              · rw [hc]; simp
              · simpa [pullsFollowSums] using htr
        · rw [if_neg hb]
          by_cases hn : n < 0 ∨ (bs.length : Int) < n
          · rw [if_pos hn]
            exact ⟨[Call.sink (bs.take l.toNat) n none, Call.hash (bs.take l.toNat) none],
              by simp, rfl⟩
          · rw [if_neg hn]
            obtain ⟨calls, hc, htr⟩ := ih
              { nextStop := hw.nextStop, nWritten := hw.nWritten + n, nSum := hw.nSum, h := h1 }
              s2 (log ++ [Call.sink (bs.take l.toNat) n none] ++
                [Call.hash (bs.take l.toNat) none]) (bs.drop n.toNat) (t + n)
            refine ⟨[Call.sink (bs.take l.toNat) n none, Call.hash (bs.take l.toNat) none]
              ++ calls, ?_, ?_⟩
            · rw [hc]; simp
            · simpa [pullsFollowSums] using htr

theorem writeAll_pulls (c : Collab σ η) (fuel : Nat) :
    ∀ (ws : List (List Byte)) (hw : HashingWriter η) (s : σ) (log : List Call),
      ∃ calls, (writeAll (traced c) fuel ws hw (s, log)).2.2.2 = log ++ calls ∧
        calls.countP Call.isPull = calls.countP Call.isOkSum := by
  intro ws
  induction ws with
  | nil => intro hw s log; exact ⟨[], by simp [writeAll], rfl⟩
  | cons bs rest ih =>
    intro hw s log
    obtain ⟨calls, hc, hp⟩ := writeLoop_pulls c fuel hw s log bs 0
    have hcount := pullsFollowSums_count calls false hp
    simp only [Bool.false_eq_true, if_false, Nat.add_zero] at hcount
    obtain ⟨calls2, hc2, hp2⟩ := ih (writeLoop (traced c) fuel hw (s, log) bs 0).2.1
      (writeLoop (traced c) fuel hw (s, log) bs 0).2.2.1 (log ++ calls)
    refine ⟨calls ++ calls2, ?_, ?_⟩
    · simp only [writeAll, HashingWriter.Write]
      rw [← List.append_assoc, ← hc2, ← hc]
    · simp only [List.countP_append, hcount, hp2]

/-- C13 (boundary source usage).  For arbitrary collaborators, with every call recorded:
`NewHashingWriter` calls `iterStops` exactly once and its result is the first `nextStop`;
during `Write` the boundary source is called right after each callback call that returned
nil and at no other time, so its calls are as many as those callback calls; `Close` never
calls it; over a session from an empty record the number of `iterStops` calls is 1 plus the
number of callback calls that returned nil up to the end of the last `Write`. -/
theorem boundary_source_usage (c : Collab σ η) (fuel : Nat) (hw : HashingWriter η) (s : σ)
    (log : List Call) (bs : List Byte) (ws : List (List Byte)) :
    (NewHashingWriter (traced c) (s, log)).2.2
        = log ++ [Call.iterStops (NewHashingWriter (traced c) (s, log)).1.nextStop,
            Call.newHash] ∧
      (∃ calls, (HashingWriter.Write (traced c) fuel hw (s, log) bs).2.2.2 = log ++ calls ∧
        pullsFollowSums false calls = true ∧
        calls.countP Call.isPull = calls.countP Call.isOkSum) ∧
      (∃ calls, (HashingWriter.Close (traced c) hw (s, log)).2.2 = log ++ calls ∧
        calls.countP Call.isPull = 0) ∧
      (session (traced c) fuel ws (s, [])).2.2.2.countP Call.isPull
        = 1 + (afterWrites (traced c) fuel ws (s, [])).2.2.2.countP Call.isOkSum := by
  have hclose : ∀ (hw : HashingWriter η) (s : σ) (log : List Call),
      ∃ calls, (HashingWriter.Close (traced c) hw (s, log)).2.2 = log ++ calls ∧
        calls.countP Call.isPull = 0 := by
    intro hw s log
    unfold HashingWriter.Close
    by_cases h : hw.nSum ≠ hw.nWritten
    · rw [if_pos h]
      simp only [traced_onSum, traced_hSum]
      refine ⟨[Call.onSum hw.nWritten (c.hSum hw.h) (c.onSum s hw.nWritten (c.hSum hw.h)).1],
        ?_, rfl⟩
      cases (c.onSum s hw.nWritten (c.hSum hw.h)).1 <;> rfl
    · rw [if_neg h]
      exact ⟨[], by simp, rfl⟩
  have hnew : ∀ (log : List Call), (NewHashingWriter (traced c) (s, log)).2.2
      = log ++ [Call.iterStops (NewHashingWriter (traced c) (s, log)).1.nextStop,
          Call.newHash] := by
    intro log
    simp [NewHashingWriter, traced_iterStops, traced_newHash]
  refine ⟨hnew log, ?_, hclose hw s log, ?_⟩
  · obtain ⟨calls, hc, hp⟩ := writeLoop_pulls c fuel hw s log bs 0
    have hcount := pullsFollowSums_count calls false hp
    simp only [Bool.false_eq_true, if_false, Nat.add_zero] at hcount
    exact ⟨calls, hc, hp, hcount⟩
  · obtain ⟨calls, hc, hp⟩ := writeAll_pulls c fuel ws
      (NewHashingWriter (traced c) (s, [])).1 (NewHashingWriter (traced c) (s, [])).2.1
      [Call.iterStops (NewHashingWriter (traced c) (s, [])).1.nextStop, Call.newHash]
    have haw : (afterWrites (traced c) fuel ws (s, [])).2.2.2
        = [Call.iterStops (NewHashingWriter (traced c) (s, [])).1.nextStop, Call.newHash]
          ++ calls := by
      rw [← hc]
      have := hnew []
      simp only [List.nil_append] at this
      rw [← this]
      rfl
    obtain ⟨calls2, hc2, hp2⟩ := hclose (afterWrites (traced c) fuel ws (s, [])).2.1
      (afterWrites (traced c) fuel ws (s, [])).2.2.1
      (afterWrites (traced c) fuel ws (s, [])).2.2.2
    have hses : (session (traced c) fuel ws (s, [])).2.2.2
        = (afterWrites (traced c) fuel ws (s, [])).2.2.2 ++ calls2 := by
      rw [← hc2]; rfl
    rw [hses, haw]
    simp only [List.countP_append, hp2, hp, List.countP_cons, List.countP_nil, Call.isPull,
      Call.isOkSum]
    simp

/-! ## A callback that may refuse a digest -/

theorem Passed.append {stops : Nat → Int} (hp : Policy stops) {H : List Byte → List Byte}
    {v : Int → List Byte → Option Error} {data : List Byte} {a b : Nat}
    (h : Passed stops H v data a b) (x : List Byte)
    (hb : prevStop stops b ≤ (data.length : Int)) : Passed stops H v (data ++ x) a b := by
  intro k hak hkb
  have h1 := hp.stops_le_prevStop hkb
  have h2 := hp.prevStop_nonneg k
  have h3 := hp.prevStop_lt k
  rw [slice_append data x h2 (by omega) (by omega)]
  exact h k hak hkb

theorem Passed.trans {stops : Nat → Int} {H : List Byte → List Byte}
    {v : Int → List Byte → Option Error} {data : List Byte} {a b c : Nat}
    (h1 : Passed stops H v data a b) (h2 : Passed stops H v data b c) :
    Passed stops H v data a c := by
  intro k hak hkc
  by_cases hkb : k < b
  · exact h1 k hak hkb
  · exact h2 k (by omega) hkc

/-- The digest of a run that completes the current chunk. -/
theorem Inv.digest {stops : Nat → Int} (hp : Policy stops) {H : List Byte → List Byte}
    {data : List Byte} {m : Nat} {hw : HashingWriter (List Byte)} {s : World}
    (hi : Inv stops H data m hw s) (run : List Byte)
    (hrun : (run.length : Int) = hw.nextStop - hw.nWritten) :
    hw.h ++ run = slice (data ++ run) (prevStop stops m) (stops m) := by
  have h0 := hp.prevStop_nonneg m
  have h1 := hi.reached
  have h2 := hi.nWritten
  have h3 := hi.nextStop
  unfold slice
  rw [List.drop_append_of_le_length (by omega), ← hi.acc, List.take_of_length_le]
  rw [List.length_append, hi.acc, List.length_drop]; omega

/-- The state in which the loop stops when the callback refuses the digest of the current
chunk. -/
theorem Inv.fail {stops : Nat → Int} (hp : Policy stops) {H : List Byte → List Byte}
    {data : List Byte} {m : Nat} {hw : HashingWriter (List Byte)} {s : World}
    (hi : Inv stops H data m hw s) (run : List Byte)
    (hrun : (run.length : Int) = hw.nextStop - hw.nWritten) :
    Failed stops H (data ++ run) m
      { hw with h := hw.h ++ run, nWritten := hw.nextStop }
      { s with sunk := s.sunk ++ [run],
               events := s.events ++ [(hw.nextStop, H (hw.h ++ run))] } := by
  have h0 := hp.prevStop_nonneg m
  have h1 := hi.reached
  have h2 := hi.nWritten
  have h3 := hi.nextStop
  have hlen : (((data ++ run).length : Nat) : Int) = stops m := by
    simp only [List.length_append, Nat.cast_add]; omega
  constructor
  · exact hi.pulls
  · exact h3
  · exact h3
  · exact hlen
  · exact hi.digest hp run hrun
  · simp only
    rw [chunkEvents_succ, chunkEvents_append hp H data run m (by omega), ← hi.events, h3,
      hi.digest hp run hrun]
  · simp only [List.flatten_append, hi.sunk, List.flatten_cons, List.flatten_nil,
      List.append_nil]
  · exact hi.nSum

/-- The loop of `Write` with well-behaved collaborators and any callback.  Either the whole
input is forwarded, the invariant holds for the longer stream and the callback accepted
every chunk completed on the way; or the callback refused the digest of some chunk `j`
after it had accepted the chunks before, and the loop stopped there. -/
theorem writeLoop_ideal_verdict {stops : Nat → Int} (hp : Policy stops)
    (H : List Byte → List Byte) (v : Int → List Byte → Option Error) :
    ∀ (fuel : Nat) (bs : List Byte) (hw : HashingWriter (List Byte)) (s : World)
      (data : List Byte) (m : Nat) (t : Int),
      Inv stops H data m hw s → bs.length < fuel →
      (∃ hw1 s1 m1, writeLoop (ideal stops H v) fuel hw s bs t
          = (Outcome.returned (t + bs.length) none, hw1, s1) ∧ m ≤ m1 ∧
          Inv stops H (data ++ bs) m1 hw1 s1 ∧ Passed stops H v (data ++ bs) m m1) ∨
      (∃ n e hw1 s1 j pre rest, writeLoop (ideal stops H v) fuel hw s bs t
          = (Outcome.returned n (some e), hw1, s1) ∧ m ≤ j ∧ bs = pre ++ rest ∧
          Failed stops H (data ++ pre) j hw1 s1 ∧ Passed stops H v (data ++ pre) m j ∧
          v (stops j) (H (slice (data ++ pre) (prevStop stops j) (stops j))) = some e) := by
  intro fuel
  induction fuel with
  | zero => intro bs hw s data m t _ hf; omega
  | succ fuel ih =>
    intro bs hw s data m t hi hf
    by_cases hne : bs.length = 0
    · have hnil : bs = [] := List.length_eq_zero.mp hne
      subst hnil
      left
      refine ⟨hw, s, m, ?_, le_refl _, by simpa using hi, fun k h1 h2 => by omega⟩
      rw [writeLoop_nil]; simp
    · have hpos : 0 < bs.length := Nat.pos_of_ne_zero hne
      have hb := hi.below
      by_cases hlt : (bs.length : Int) < hw.nextStop - hw.nWritten
      · obtain ⟨f, rfl⟩ : ∃ f, fuel = f + 1 := ⟨fuel - 1, by omega⟩
        left
        exact ⟨_, _, m, writeLoop_ideal_short stops H v f hw s bs t hpos hlt, le_refl _,
          hi.short hp bs hlt, fun k h1 h2 => by omega⟩
      · have hle : hw.nextStop - hw.nWritten ≤ (bs.length : Int) := by omega
        have hrun : (((bs.take (hw.nextStop - hw.nWritten).toNat).length : Nat) : Int)
            = hw.nextStop - hw.nWritten := by
          rw [List.length_take]; omega
        have hdig := hi.digest hp (bs.take (hw.nextStop - hw.nWritten).toNat) hrun
        have hfail := hi.fail hp (bs.take (hw.nextStop - hw.nWritten).toNat) hrun
        rw [writeLoop_ideal_reach stops H v fuel hw s bs t (by omega) hle]
        cases hv : v hw.nextStop (H (hw.h ++ bs.take (hw.nextStop - hw.nWritten).toNat)) with
        | some e =>
          right
          refine ⟨t, e, _, _, m, bs.take (hw.nextStop - hw.nWritten).toNat,
            bs.drop (hw.nextStop - hw.nWritten).toNat, rfl, le_refl _,
            (List.take_append_drop _ _).symm, hfail, fun k h1 h2 => by omega, ?_⟩
          rw [← hdig, ← hi.nextStop]; exact hv
        | none =>
          simp only
          have hi2 := hi.reach hp (bs.take (hw.nextStop - hw.nWritten).toNat) hrun
          have hlen : (bs.drop (hw.nextStop - hw.nWritten).toNat).length < fuel := by
            rw [List.length_drop]; omega
          have hlen2 : (((data ++ bs.take (hw.nextStop - hw.nWritten).toNat).length : Nat) : Int)
              = stops m := by
            have := hi.nWritten
            have := hi.nextStop
            simp only [List.length_append, Nat.cast_add]; omega
          have hpm : Passed stops H v (data ++ bs.take (hw.nextStop - hw.nWritten).toNat)
              m (m + 1) := by
            intro k h1 h2
            have hk : k = m := by omega
            subst hk
            rw [← hdig, ← hi.nextStop]; exact hv
          rcases ih (bs.drop (hw.nextStop - hw.nWritten).toNat) _ _ _ _
              (t + (hw.nextStop - hw.nWritten)) hi2 hlen with hl | hr
          · left
            obtain ⟨hw1, s1, m1, he, hm, hinv, hpass⟩ := hl
            rw [List.append_assoc, List.take_append_drop] at hinv hpass
            refine ⟨hw1, s1, m1, ?_, by omega, hinv, ?_⟩
            · rw [he]
              have : t + (hw.nextStop - hw.nWritten) +
                  ((bs.drop (hw.nextStop - hw.nWritten).toNat).length : Int)
                  = t + (bs.length : Int) := by
                rw [List.length_drop]; omega
              rw [this]
            · have := hpm.append hp (bs.drop (hw.nextStop - hw.nWritten).toNat)
                (by simp only [prevStop]; omega)
              rw [List.append_assoc, List.take_append_drop] at this
              exact this.trans hpass
          · right
            obtain ⟨n, e, hw1, s1, j, pre, rest, he, hm, hsplit, hfl, hpass, hvj⟩ := hr
            rw [List.append_assoc] at hfl hpass hvj
            refine ⟨n, e, hw1, s1, j, bs.take (hw.nextStop - hw.nWritten).toNat ++ pre, rest,
              he, by omega, ?_, hfl, ?_, hvj⟩
            · rw [List.append_assoc, ← hsplit, List.take_append_drop]
            · have := hpm.append hp pre (by simp only [prevStop]; omega)
              rw [List.append_assoc] at this
              exact this.trans hpass

/-- What `Close` does with well-behaved collaborators, from any state. -/
theorem close_ideal_eval (stops : Nat → Int) (H : List Byte → List Byte)
    (v : Int → List Byte → Option Error) (hw : HashingWriter (List Byte)) (s : World) :
    HashingWriter.Close (ideal stops H v) hw s =
      if hw.nSum ≠ hw.nWritten then
        (v hw.nWritten (H hw.h),
          { s with events := s.events ++ [(hw.nWritten, H hw.h)] })
      else (none, s) := by
  unfold HashingWriter.Close
  by_cases h : hw.nSum ≠ hw.nWritten
  · simp only [h, if_true, ideal, scripted]
    cases v hw.nWritten (H hw.h) <;> rfl
  · simp only [h, if_false]

theorem writeAll_append (c : Collab σ η) (fuel : Nat) :
    ∀ (ws1 ws2 : List (List Byte)) (hw : HashingWriter η) (s : σ),
      writeAll c fuel (ws1 ++ ws2) hw s =
        ((writeAll c fuel ws1 hw s).1 ++
            (writeAll c fuel ws2 (writeAll c fuel ws1 hw s).2.1
              (writeAll c fuel ws1 hw s).2.2).1,
          (writeAll c fuel ws2 (writeAll c fuel ws1 hw s).2.1
            (writeAll c fuel ws1 hw s).2.2).2) := by
  intro ws1
  induction ws1 with
  | nil => intro ws2 hw s; simp [writeAll]
  | cons bs rest ih =>
    intro ws2 hw s
    rw [List.cons_append]
    simp only [writeAll]
    rw [ih]
    rfl

theorem writeAll_length (c : Collab σ η) (fuel : Nat) :
    ∀ (ws : List (List Byte)) (hw : HashingWriter η) (s : σ),
      (writeAll c fuel ws hw s).1.length = ws.length := by
  intro ws
  induction ws with
  | nil => intro hw s; simp [writeAll]
  | cons bs rest ih => intro hw s; simp [writeAll, ih]

/-- C19 (Close after a failed boundary callback).  With a positive strictly increasing
boundary policy, a sink that accepts every write in full and any callback: if, after writes
that returned nil, a `Write` returns the error `e`, then `nWritten = nextStop`,
`nSum < nWritten`, the boundary source was not called after the refused digest (`pulls`
equals the number of callback calls), the last callback call was `(nWritten, Sum of the
current accumulator)` and answered `e`, and a following `Close` makes the same call again
and returns `e`.  In any state two `Close` calls in a row emit the same event twice, or
nothing. -/
theorem close_after_failed_callback (stops : Nat → Int) (H : List Byte → List Byte)
    (v : Int → List Byte → Option Error) (ws0 : List (List Byte)) (bs : List Byte)
    (fuel : Nat) (n : Int) (e : Error) (hp : Policy stops)
    (hf : ∀ b ∈ ws0 ++ [bs], b.length < fuel)
    (hfail : (afterWrites (ideal stops H v) fuel (ws0 ++ [bs]) World.initial).1
      = ws0.map (fun b => Outcome.returned (b.length : Int) none) ++
        [Outcome.returned n (some e)]) :
    (afterWrites (ideal stops H v) fuel (ws0 ++ [bs]) World.initial).2.1.nWritten
        = (afterWrites (ideal stops H v) fuel (ws0 ++ [bs]) World.initial).2.1.nextStop ∧
      (afterWrites (ideal stops H v) fuel (ws0 ++ [bs]) World.initial).2.1.nSum
        < (afterWrites (ideal stops H v) fuel (ws0 ++ [bs]) World.initial).2.1.nWritten ∧
      (afterWrites (ideal stops H v) fuel (ws0 ++ [bs]) World.initial).2.2.pulls
        = (afterWrites (ideal stops H v) fuel (ws0 ++ [bs]) World.initial).2.2.events.length ∧
      (afterWrites (ideal stops H v) fuel (ws0 ++ [bs]) World.initial).2.2.events.getLast?
        = some ((afterWrites (ideal stops H v) fuel (ws0 ++ [bs]) World.initial).2.1.nWritten,
            H (afterWrites (ideal stops H v) fuel (ws0 ++ [bs]) World.initial).2.1.h) ∧
      v (afterWrites (ideal stops H v) fuel (ws0 ++ [bs]) World.initial).2.1.nWritten
          (H (afterWrites (ideal stops H v) fuel (ws0 ++ [bs]) World.initial).2.1.h)
        = some e ∧
      HashingWriter.Close (ideal stops H v)
          (afterWrites (ideal stops H v) fuel (ws0 ++ [bs]) World.initial).2.1
          (afterWrites (ideal stops H v) fuel (ws0 ++ [bs]) World.initial).2.2
        = (some e,
            { (afterWrites (ideal stops H v) fuel (ws0 ++ [bs]) World.initial).2.2 with
              events :=
                (afterWrites (ideal stops H v) fuel (ws0 ++ [bs]) World.initial).2.2.events ++
                [((afterWrites (ideal stops H v) fuel (ws0 ++ [bs]) World.initial).2.1.nWritten,
                  H (afterWrites (ideal stops H v) fuel (ws0 ++ [bs])
                    World.initial).2.1.h)] }) ∧
      ∀ (hw : HashingWriter (List Byte)) (s : World),
        (HashingWriter.Close (ideal stops H v) hw
            (HashingWriter.Close (ideal stops H v) hw s).2).2.events
          = if hw.nSum ≠ hw.nWritten then
              s.events ++ [(hw.nWritten, H hw.h), (hw.nWritten, H hw.h)]
            else s.events := by
  have hf0 : ∀ b ∈ ws0, b.length < fuel := fun b hb => hf b (List.mem_append_left _ hb)
  have hfb : bs.length < fuel := hf bs (by simp)
  have happ : afterWrites (ideal stops H v) fuel (ws0 ++ [bs]) World.initial
      = ((afterWrites (ideal stops H v) fuel ws0 World.initial).1 ++
          [(writeLoop (ideal stops H v) fuel
            (afterWrites (ideal stops H v) fuel ws0 World.initial).2.1
            (afterWrites (ideal stops H v) fuel ws0 World.initial).2.2 bs 0).1],
        (writeLoop (ideal stops H v) fuel
            (afterWrites (ideal stops H v) fuel ws0 World.initial).2.1
            (afterWrites (ideal stops H v) fuel ws0 World.initial).2.2 bs 0).2) := by
    simp only [afterWrites, writeAll_append, writeAll, HashingWriter.Write]
  rw [happ] at hfail ⊢
  simp only at hfail ⊢
  have hlen : (afterWrites (ideal stops H v) fuel ws0 World.initial).1.length
      = (ws0.map (fun b => Outcome.returned (b.length : Int) none)).length := by
    simp only [afterWrites, writeAll_length, List.length_map]
  obtain ⟨hout0, hout⟩ := List.append_inj hfail hlen
  simp only [List.cons.injEq, and_true] at hout
  obtain ⟨m, hinv⟩ : ∃ m, Inv stops H ws0.flatten m
      (afterWrites (ideal stops H v) fuel ws0 World.initial).2.1
      (afterWrites (ideal stops H v) fuel ws0 World.initial).2.2 := by
    rcases writeAll_ideal_inv hp H v fuel ws0 _ _ [] 0 (Inv.fresh hp H v) hf0 with hl | hr
    · obtain ⟨n1, e1, _, _, hmem, _⟩ := hl
      change Outcome.returned n1 (some e1)
        ∈ (afterWrites (ideal stops H v) fuel ws0 World.initial).1 at hmem
      rw [hout0] at hmem
      simp at hmem
    · obtain ⟨_, m, _, hinv⟩ := hr
      exact ⟨m, by simpa using hinv⟩
  have hclose2 : ∀ (hw : HashingWriter (List Byte)) (s : World),
      (HashingWriter.Close (ideal stops H v) hw
          (HashingWriter.Close (ideal stops H v) hw s).2).2.events
        = if hw.nSum ≠ hw.nWritten then
            s.events ++ [(hw.nWritten, H hw.h), (hw.nWritten, H hw.h)]
          else s.events := by
    intro hw s
    rw [close_ideal_eval, close_ideal_eval]
    by_cases h : hw.nSum ≠ hw.nWritten
    · simp [h]
    · simp [h]
  rcases writeLoop_ideal_verdict hp H v fuel bs _ _ _ m 0 hinv hfb with hl | hr
  · obtain ⟨hw1, s1, m1, he, _⟩ := hl
    rw [he] at hout
    simp at hout
  · obtain ⟨n1, e1, hw1, s1, j, pre, rest, he, _, _, hfl, _, hvj⟩ := hr
    rw [he] at hout ⊢
    simp only [Outcome.returned.injEq, Option.some.injEq] at hout
    have hlt := hp.prevStop_lt j
    have hsum := hfl.nSum
    have hnw := hfl.nWritten
    have hns := hfl.nextStop
    rw [← hfl.acc, ← hfl.nWritten, hout.2] at hvj
    refine ⟨?_, ?_, ?_, ?_, hvj, ?_, hclose2⟩
    · simp only; omega
    · simp only; omega
    · simp only [hfl.pulls, hfl.events, chunkEvents_length]
    · simp [hfl.events, chunkEvents_succ, hfl.acc, hfl.nWritten]
    · have hne : hw1.nSum ≠ hw1.nWritten := by omega
      simp only
      rw [close_ideal_eval, if_pos hne, hvj]

/-- A boundary every 2 bytes and a callback that refuses offset 2: `Write([1])` returns
nil and `Write([2, 3])` returns the error of the callback. -/
theorem close_after_failed_callback_witness :
    (afterWrites (ideal (every 2) id (refuseAt 2)) 3 ([[1]] ++ [[2, 3]])
        World.initial).2.1.nWritten
        = (afterWrites (ideal (every 2) id (refuseAt 2)) 3 ([[1]] ++ [[2, 3]])
            World.initial).2.1.nextStop ∧
      (afterWrites (ideal (every 2) id (refuseAt 2)) 3 ([[1]] ++ [[2, 3]])
        World.initial).2.1.nSum
        < (afterWrites (ideal (every 2) id (refuseAt 2)) 3 ([[1]] ++ [[2, 3]])
            World.initial).2.1.nWritten :=
  have h := close_after_failed_callback (every 2) id (refuseAt 2) [[1]] [2, 3] 3 0 "bad sum"
    every_two_policy (by decide)
    (by simp [afterWrites, writeAll, HashingWriter.Write, NewHashingWriter, writeLoop, ideal,
      scripted, acceptAll, refuseAt, every, World.initial])
  ⟨h.1, h.2.1⟩

/-! ## Fault localization -/

theorem Policy.index_unique {stops : Nat → Int} (hp : Policy stops) {a b : Nat} {L : Int}
    (ha1 : prevStop stops a ≤ L) (ha2 : L < stops a) (hb1 : prevStop stops b ≤ L)
    (hb2 : L < stops b) : a = b := by
  rcases Nat.lt_trichotomy a b with hlt | heq | hgt
  · have := hp.stops_le_prevStop hlt
    omega
  · exact heq
  · have := hp.stops_le_prevStop hgt
    omega

/-- The events of one `Write` of `data` followed by `Close`, with a callback that never
errors: the completed chunks and, when bytes remain after the last boundary, the trailing
chunk. -/
theorem cleanSums_eq {stops : Nat → Int} (hp : Policy stops) (H : List Byte → List Byte)
    (fuel : Nat) (data : List Byte) (hf : data.length < fuel) :
    ∃ m, prevStop stops m ≤ (data.length : Int) ∧ (data.length : Int) < stops m ∧
      cleanSums stops H fuel data = chunkEvents stops H data m ++
        (if prevStop stops m = (data.length : Int) then []
          else [((data.length : Int), H (data.drop (prevStop stops m).toNat))]) := by
  have hfresh := Inv.fresh hp H accept
  rcases writeLoop_ideal_inv hp H accept fuel data _ _ [] 0 0 hfresh hf with hl | hr
  · obtain ⟨_, _, _, _, _, _, _, hv⟩ := hl
    simp [accept] at hv
  · obtain ⟨hw1, s1, m, he, _, hinv, hal⟩ := hr
    simp only [List.nil_append, zero_add] at he hinv
    have hsum : hw1.nSum = prevStop stops m := by
      apply hal <;> simp [NewHashingWriter, prevStop]
    have h1 := hinv.reached
    have h2 := hinv.below
    rw [hinv.nextStop, hinv.nWritten] at h2
    rw [hinv.nWritten] at h1
    refine ⟨m, h1, h2, ?_⟩
    have hses : cleanSums stops H fuel data
        = (HashingWriter.Close (ideal stops H accept) hw1 s1).2.events := by
      simp only [cleanSums, session, afterWrites, writeAll, HashingWriter.Write, he]
    rw [hses, close_ideal accept hinv, hsum, hinv.nWritten]
    by_cases h : prevStop stops m = (data.length : Int)
    · simp [h, hinv.events]
    · simp [h, hinv.events]

theorem sumMapOf_append (evs : List (Int × List Byte)) (off : Int) (d : List Byte) :
    sumMapOf (evs ++ [(off, d)]) = Function.update (sumMapOf evs) off d := by
  simp [sumMapOf, List.foldl_append]

theorem sumMapOf_chunkEvents {stops : Nat → Int} (hp : Policy stops)
    (H : List Byte → List Byte) (data : List Byte) :
    ∀ (m k : Nat), k < m →
      sumMapOf (chunkEvents stops H data m) (stops k)
        = H (slice data (prevStop stops k) (stops k)) := by
  intro m
  induction m with
  | zero => intro k hk; omega
  | succ m ih =>
    intro k hk
    rw [chunkEvents_succ, sumMapOf_append]
    by_cases hkm : k = m
    · subst hkm
      rw [Function.update_same]
    · have hlt : k < m := by omega
      have h1 := hp.stops_le_prevStop hlt
      have h2 := hp.prevStop_lt m
      rw [Function.update_noteq (by omega), ih k hlt]

/-- A byte changed at or after the end of a slice does not change the slice. -/
theorem slice_set_of_le (data : List Byte) (p : Nat) (x : Byte) {a b : Int} (ha : 0 ≤ a)
    (hb : b ≤ (p : Int)) : slice (data.set p x) a b = slice data a b := by
  unfold slice
  by_cases hab : a ≤ b
  · rw [List.drop_set, if_neg (by omega), List.set_take, List.set_eq_of_length_le]
    rw [List.length_take]
    omega
  · have : (b - a).toNat = 0 := by omega
    rw [this, List.take_zero, List.take_zero]

/-- A byte changed before the start of a slice does not change the slice. -/
theorem slice_set_of_lt (data : List Byte) (p : Nat) (x : Byte) {a b : Int}
    (ha : (p : Int) < a) : slice (data.set p x) a b = slice data a b := by
  unfold slice
  rw [List.drop_set_of_lt]
  omega

/-- Streaming buffers with well-behaved collaborators and any callback: either every
`Write` returns nil and the callback accepted every completed chunk, or the stream stops at
the `Write` in which the callback refused the digest of some chunk `j`. -/
theorem streamAll_ideal_verdict {stops : Nat → Int} (hp : Policy stops)
    (H : List Byte → List Byte) (v : Int → List Byte → Option Error) (fuel : Nat) :
    ∀ (ws : List (List Byte)) (hw : HashingWriter (List Byte)) (s : World)
      (data : List Byte) (m : Nat),
      Inv stops H data m hw s → (∀ bs ∈ ws, bs.length < fuel) →
      ((streamAll (ideal stops H v) fuel ws hw s).1
          = ws.map (fun bs => Outcome.returned (bs.length : Int) none) ∧
        ∃ m1, m ≤ m1 ∧ Inv stops H (data ++ ws.flatten) m1
          (streamAll (ideal stops H v) fuel ws hw s).2.1
          (streamAll (ideal stops H v) fuel ws hw s).2.2 ∧
          Passed stops H v (data ++ ws.flatten) m m1) ∨
      (∃ oks n e j pre rest,
        (streamAll (ideal stops H v) fuel ws hw s).1 = oks ++ [Outcome.returned n (some e)] ∧
        (∀ o ∈ oks, ∃ k, o = Outcome.returned k none) ∧ m ≤ j ∧ ws.flatten = pre ++ rest ∧
        Failed stops H (data ++ pre) j (streamAll (ideal stops H v) fuel ws hw s).2.1
          (streamAll (ideal stops H v) fuel ws hw s).2.2 ∧
        Passed stops H v (data ++ pre) m j ∧
        v (stops j) (H (slice (data ++ pre) (prevStop stops j) (stops j))) = some e) := by
  intro ws
  induction ws with
  | nil =>
    intro hw s data m hi _
    left
    exact ⟨rfl, m, le_refl _, by simpa [streamAll] using hi, fun k h1 h2 => by omega⟩
  | cons bs rest ih =>
    intro hw s data m hi hf
    have hbs : bs.length < fuel := hf bs (List.mem_cons_self _ _)
    have hrest : ∀ b ∈ rest, b.length < fuel := fun b hb => hf b (List.mem_cons_of_mem _ hb)
    rcases writeLoop_ideal_verdict hp H v fuel bs hw s data m 0 hi hbs with hl | hr
    · obtain ⟨hw1, s1, m1, he, hm, hinv, hpass⟩ := hl
      have hst : streamAll (ideal stops H v) fuel (bs :: rest) hw s
          = (Outcome.returned (0 + (bs.length : Int)) none ::
              (streamAll (ideal stops H v) fuel rest hw1 s1).1,
            (streamAll (ideal stops H v) fuel rest hw1 s1).2.1,
            (streamAll (ideal stops H v) fuel rest hw1 s1).2.2) := by
        simp only [streamAll, HashingWriter.Write, he]
      rw [hst]
      have hreach : prevStop stops m1 ≤ ((data ++ bs).length : Int) := by
        have := hinv.reached
        rw [hinv.nWritten] at this
        exact this
      rcases ih hw1 s1 (data ++ bs) m1 hinv hrest with hl2 | hr2
      · left
        obtain ⟨ho, m2, hm2, hinv2, hpass2⟩ := hl2
        refine ⟨by simp only [ho, List.map_cons, zero_add], m2, by omega, ?_, ?_⟩
        · simp only [List.flatten_cons]
          rw [← List.append_assoc]; exact hinv2
        · simp only [List.flatten_cons]
          rw [← List.append_assoc]
          exact (hpass.append hp rest.flatten hreach).trans hpass2
      · right
        obtain ⟨oks, n, e, j, pre, rst, ho, hoks, hj, hsplit, hfl, hpass2, hvj⟩ := hr2
        refine ⟨Outcome.returned (0 + (bs.length : Int)) none :: oks, n, e, j, bs ++ pre, rst,
          by simp only [ho, List.cons_append], ?_, by omega, ?_, ?_, ?_, ?_⟩
        · intro o ho2
          rcases List.mem_cons.mp ho2 with h1 | h1
          · exact ⟨_, h1⟩
          · exact hoks o h1
        · simp only [List.flatten_cons, hsplit, List.append_assoc]
        · rw [← List.append_assoc]; exact hfl
        · rw [← List.append_assoc]
          exact (hpass.append hp pre hreach).trans hpass2
        · rw [← List.append_assoc]; exact hvj
    · right
      obtain ⟨n, e, hw1, s1, j, pre, rst, he, hj, hsplit, hfl, hpass, hvj⟩ := hr
      have hst : streamAll (ideal stops H v) fuel (bs :: rest) hw s
          = ([Outcome.returned n (some e)], hw1, s1) := by
        simp only [streamAll, HashingWriter.Write, he]
      rw [hst]
      exact ⟨[], n, e, j, pre, rst ++ rest.flatten, rfl, by simp, hj,
        by simp only [List.flatten_cons, hsplit, List.append_assoc], hfl, hpass, hvj⟩

/-- C11 (fault localization).  Boundaries positive and strictly increasing, sink accepting
every write in full.  The sums of a clean run over `D` (one `Write`, `Close`) are recorded;
the verifying callback compares with them.  `D'` is `D` with the byte at position `p`
replaced, `p` lies in chunk `i`, and the hash of chunk `i` of `D'` differs from that of `D`.
Streaming `D'` in any split and then calling `Close`: the callback accepts the digest of
every chunk before `i`; if chunk `i` is complete, the writes before the failing one return
nil, one `Write` returns the error for offset `stops i` and `Close` returns it again, the
callback calls being those of chunks `0..i` and the repeated call for chunk `i`; if chunk `i`
is the trailing partial chunk, every `Write` returns nil and `Close` returns the error for
offset `len(D)`. -/
theorem fault_localization (stops : Nat → Int) (H : List Byte → List Byte) (D : List Byte)
    (p : Nat) (x : Byte) (i : Nat) (ws : List (List Byte)) (fuel : Nat)
    (hp : Policy stops) (hpD : p < D.length)
    (hlo : prevStop stops i ≤ (p : Int)) (hhi : (p : Int) < stops i)
    (hws : ws.flatten = D.set p x) (hf : ∀ bs ∈ ws, bs.length < fuel)
    (hfD : D.length < fuel)
    (hhash : H (slice (D.set p x) (prevStop stops i) (stops i))
      ≠ H (slice D (prevStop stops i) (stops i))) :
    (∀ k, k < i →
      verifying (sumMapOf (cleanSums stops H fuel D)) (stops k)
        (H (slice (D.set p x) (prevStop stops k) (stops k))) = none) ∧
    (stops i ≤ (D.length : Int) →
      (∃ oks n,
        (verifyRun (ideal stops H (verifying (sumMapOf (cleanSums stops H fuel D)))) fuel ws
          World.initial).1 = oks ++ [Outcome.returned n (some (badSum (stops i)))] ∧
        ∀ o ∈ oks, ∃ k, o = Outcome.returned k none) ∧
      (verifyRun (ideal stops H (verifying (sumMapOf (cleanSums stops H fuel D)))) fuel ws
        World.initial).2.1 = some (badSum (stops i)) ∧
      (verifyRun (ideal stops H (verifying (sumMapOf (cleanSums stops H fuel D)))) fuel ws
        World.initial).2.2.events
        = chunkEvents stops H (D.set p x) (i + 1) ++
          [(stops i, H (slice (D.set p x) (prevStop stops i) (stops i)))]) ∧
    ((D.length : Int) < stops i →
      (verifyRun (ideal stops H (verifying (sumMapOf (cleanSums stops H fuel D)))) fuel ws
        World.initial).1 = ws.map (fun bs => Outcome.returned (bs.length : Int) none) ∧
      (verifyRun (ideal stops H (verifying (sumMapOf (cleanSums stops H fuel D)))) fuel ws
        World.initial).2.1 = some (badSum (D.length : Int)) ∧
      (verifyRun (ideal stops H (verifying (sumMapOf (cleanSums stops H fuel D)))) fuel ws
        World.initial).2.2.events
        = chunkEvents stops H (D.set p x) i ++
          [((D.length : Int), H (slice (D.set p x) (prevStop stops i) (stops i)))]) := by
  obtain ⟨m, hm1, hm2, hclean⟩ := cleanSums_eq hp H fuel D hfD
  generalize hv : verifying (sumMapOf (cleanSums stops H fuel D)) = v
  have hlen : (D.set p x).length = D.length := List.length_set _ _ _
  have hi0 := hp.prevStop_nonneg i
  -- the recorded sums
  have hF2 : ∀ k, k < m → sumMapOf (cleanSums stops H fuel D) (stops k)
      = H (slice D (prevStop stops k) (stops k)) := by
    intro k hk
    rw [hclean]
    by_cases ht : prevStop stops m = (D.length : Int)
    · rw [if_pos ht, List.append_nil]
      exact sumMapOf_chunkEvents hp H D m k hk
    · rw [if_neg ht, sumMapOf_append]
      have := hp.stops_le_prevStop hk
      rw [Function.update_noteq (by omega)]
      exact sumMapOf_chunkEvents hp H D m k hk
  have hF3 : prevStop stops m ≠ (D.length : Int) →
      sumMapOf (cleanSums stops H fuel D) (D.length : Int)
        = H (D.drop (prevStop stops m).toNat) := by
    intro ht
    rw [hclean, if_neg ht, sumMapOf_append, Function.update_same]
  have hF4 : i ≤ m := by
    by_contra hcon
    have := hp.stops_le_prevStop (Nat.lt_of_not_le hcon)
    omega
  have hF5 : ∀ k, k < i → v (stops k) (H (slice (D.set p x) (prevStop stops k) (stops k)))
      = none := by
    intro k hk
    have h1 := hp.stops_le_prevStop hk
    rw [← hv, slice_set_of_le D p x (hp.prevStop_nonneg k) (by omega)]
    unfold verifying
    rw [if_pos (hF2 k (by omega))]
  have hF6 : stops i ≤ (D.length : Int) →
      v (stops i) (H (slice (D.set p x) (prevStop stops i) (stops i)))
        = some (badSum (stops i)) := by
    intro hc
    have him : i < m := by
      rcases Nat.lt_or_ge i m with h | h
      · exact h
      · have : i = m := by omega
        subst this
        omega
    rw [← hv]
    unfold verifying
    rw [if_neg]
    rw [hF2 i him]
    exact fun h => hhash h.symm
  have hdrop : ∀ (X : List Byte), X.length = D.length → (D.length : Int) < stops i →
      slice X (prevStop stops i) (stops i) = X.drop (prevStop stops i).toNat := by
    intro X hX hc
    unfold slice
    rw [List.take_of_length_le]
    rw [List.length_drop]; omega
  have hF7 : (D.length : Int) < stops i → i = m ∧
      v (D.length : Int) (H (slice (D.set p x) (prevStop stops i) (stops i)))
        = some (badSum (D.length : Int)) := by
    intro hc
    have him : i = m := hp.index_unique (by omega) hc hm1 hm2
    refine ⟨him, ?_⟩
    rw [← hv]
    unfold verifying
    rw [if_neg]
    rw [hF3 (by rw [← him]; omega), ← him, ← hdrop D rfl hc]
    exact fun h => hhash h.symm
  refine ⟨hF5, ?_⟩
  -- the verifying run
  have hrun : verifyRun (ideal stops H v) fuel ws World.initial
      = ((streamAll (ideal stops H v) fuel ws (NewHashingWriter (ideal stops H v) World.initial).1
            (NewHashingWriter (ideal stops H v) World.initial).2).1,
          HashingWriter.Close (ideal stops H v)
            (streamAll (ideal stops H v) fuel ws
              (NewHashingWriter (ideal stops H v) World.initial).1
              (NewHashingWriter (ideal stops H v) World.initial).2).2.1
            (streamAll (ideal stops H v) fuel ws
              (NewHashingWriter (ideal stops H v) World.initial).1
              (NewHashingWriter (ideal stops H v) World.initial).2).2.2) := rfl
  rw [hrun]
  rcases streamAll_ideal_verdict hp H v fuel ws _ _ [] 0 (Inv.fresh hp H v) hf with hA | hB
  · obtain ⟨ho, m1, _, hinv, hpass⟩ := hA
    simp only [List.nil_append, hws] at hinv hpass
    have h1 := hinv.reached
    have h2 := hinv.below
    rw [hinv.nextStop, hinv.nWritten, hlen] at h2
    rw [hinv.nWritten, hlen] at h1
    have hmm : m1 = m := hp.index_unique h1 h2 hm1 hm2
    subst hmm
    constructor
    · intro hc
      have him : i < m1 := by
        rcases Nat.lt_or_ge i m1 with h | h
        · exact h
        · have : i = m1 := by omega
          subst this
          omega
      have := hpass i (Nat.zero_le _) him
      rw [hF6 hc] at this
      simp at this
    · intro hc
      obtain ⟨him, hv7⟩ := hF7 hc
      subst him
      have hne : (streamAll (ideal stops H v) fuel ws
            (NewHashingWriter (ideal stops H v) World.initial).1
            (NewHashingWriter (ideal stops H v) World.initial).2).2.1.nSum
          ≠ (streamAll (ideal stops H v) fuel ws
            (NewHashingWriter (ideal stops H v) World.initial).1
            (NewHashingWriter (ideal stops H v) World.initial).2).2.1.nWritten := by
        have := hinv.nSum
        rw [hinv.nWritten, hlen]
        omega
      rw [close_ideal v hinv, if_pos hne, hlen, ← hdrop (D.set p x) hlen hc, hv7]
      exact ⟨ho, rfl, by simp only [hinv.events]⟩
  · obtain ⟨oks, n, e, j, pre, rest, ho, hoks, _, hsplit, hfl, hpass, hvj⟩ := hB
    simp only [List.nil_append] at hfl hpass hvj
    rw [hws] at hsplit
    have hjlen := hfl.length
    have hjle : stops j ≤ (D.length : Int) := by
      have : pre.length ≤ (D.set p x).length := by
        rw [hsplit, List.length_append]; omega
      rw [hlen] at this
      omega
    have hsl : ∀ k, k ≤ j → slice pre (prevStop stops k) (stops k)
        = slice (D.set p x) (prevStop stops k) (stops k) := by
      intro k hk
      have hkj : stops k ≤ stops j := by
        rcases Nat.lt_or_ge k j with h | h
        · have := hp.stops_le_prevStop h
          have := hp.prevStop_lt j
          omega
        · have : k = j := by omega
          subst this
          exact le_refl _
      have := hp.prevStop_lt k
      rw [hsplit, slice_append pre rest (hp.prevStop_nonneg k) (by omega) (by omega)]
    rw [hsl j (le_refl _)] at hvj
    have hij : i ≤ j := by
      by_contra hcon
      rw [hF5 j (by omega)] at hvj
      simp at hvj
    constructor
    swap
    · intro hc
      have hkj : stops i ≤ stops j := by
        rcases Nat.lt_or_ge i j with h | h
        · have := hp.stops_le_prevStop h
          have := hp.prevStop_lt j
          omega
        · have : i = j := by omega
          subst this
          exact le_refl _
      omega
    · intro hc
      have hji : j = i := by
        rcases Nat.lt_or_ge i j with h | h
        · have := hpass i (Nat.zero_le _) h
          rw [hsl i (le_of_lt h), hF6 hc] at this
          simp at this
        · omega
      subst hji
      rw [hF6 hc] at hvj
      simp only [Option.some.injEq] at hvj
      subst hvj
      have hne : (streamAll (ideal stops H v) fuel ws
            (NewHashingWriter (ideal stops H v) World.initial).1
            (NewHashingWriter (ideal stops H v) World.initial).2).2.1.nSum
          ≠ (streamAll (ideal stops H v) fuel ws
            (NewHashingWriter (ideal stops H v) World.initial).1
            (NewHashingWriter (ideal stops H v) World.initial).2).2.1.nWritten := by
        have := hfl.nSum
        have := hp.prevStop_lt j
        rw [hfl.nWritten]
        omega
      rw [close_ideal_eval, if_pos hne, hfl.nWritten, hfl.acc, hsl j (le_refl _), hF6 hc]
      refine ⟨⟨oks, n, ho, hoks⟩, rfl, ?_⟩
      simp only [hfl.events]
      rw [hsplit, chunkEvents_append hp H pre rest (j + 1) (by simp only [prevStop]; omega)]

theorem testData_front : testData = helloWorld ++ (List.replicate 65535 helloWorld).flatten := by
  show (List.replicate (65535 + 1) helloWorld).flatten = _
  rw [List.replicate_succ, List.flatten_cons]

theorem testData_back : testData = (List.replicate 65535 helloWorld).flatten ++ helloWorld := by
  show (List.replicate (65535 + 1) helloWorld).flatten = _
  rw [List.replicate_succ', List.flatten_append, List.flatten_cons, List.flatten_nil,
    List.append_nil]

theorem testData_first_chunk (x : Byte) :
    slice (testData.set 0 x) 0 7 = [x, 101, 108, 108, 111, 44, 32] ∧
      slice testData 0 7 = [104, 101, 108, 108, 111, 44, 32] := by
  constructor
  · rw [testData_front]
    rfl
  · rw [testData_front]
    rfl

theorem testData_last_chunk (y : Byte) :
    slice (testData.set 851967 y) 851963 851970 = [111, 114, 108, 100, y] ∧
      slice testData 851963 851970 = [111, 114, 108, 100, 33] := by
  have hlen : (List.replicate 65535 helloWorld).flatten.length = 851955 := by
    rw [length_flatten_replicate]; rfl
  have hset : testData.set 851967 y
      = (List.replicate 65535 helloWorld).flatten ++ helloWorld.set 12 y := by
    rw [testData_back, List.set_append, hlen, if_neg (by decide)]
  have hd : ∀ (t : List Byte), List.drop 851963 ((List.replicate 65535 helloWorld).flatten ++ t)
      = List.drop 8 t := by
    intro t
    have := @List.drop_append Byte (List.replicate 65535 helloWorld).flatten t 8
    rw [hlen] at this
    exact this
  constructor
  · unfold slice
    rw [hset]
    show List.take 7 (List.drop 851963 _) = _
    rw [hd]
    rfl
  · unfold slice
    rw [testData_back]
    show List.take 7 (List.drop 851963 _) = _
    rw [hd]
    rfl

/-- The scenario of the test file: 851968 bytes, a boundary every 7 bytes.  With byte 0
inverted the single `Write` fails with the error for offset 7; with the last byte inverted
the `Write` returns nil and `Close` fails with the error for offset 851968. -/
theorem fault_localization_witness :
    (∃ oks n,
      (verifyRun (ideal (every ((7 : Nat) : Int)) id
          (verifying (sumMapOf (cleanSums (every ((7 : Nat) : Int)) id 851969 testData))))
        851969 [testData.set 0 151] World.initial).1
        = oks ++ [Outcome.returned n (some (badSum 7))] ∧
      ∀ o ∈ oks, ∃ k, o = Outcome.returned k none) ∧
    (verifyRun (ideal (every ((7 : Nat) : Int)) id
        (verifying (sumMapOf (cleanSums (every ((7 : Nat) : Int)) id 851969 testData))))
      851969 [testData.set 851967 222] World.initial).1 = [Outcome.returned 851968 none] ∧
    (verifyRun (ideal (every ((7 : Nat) : Int)) id
        (verifying (sumMapOf (cleanSums (every ((7 : Nat) : Int)) id 851969 testData))))
      851969 [testData.set 851967 222] World.initial).2.1 = some (badSum 851968) := by
  have hp : Policy (every ((7 : Nat) : Int)) := every_policy (by decide)
  have e0 : every ((7 : Nat) : Int) 0 = 7 := by simp [every]
  have e1 : every ((7 : Nat) : Int) 121709 = 851970 := by simp [every]
  have p0 : prevStop (every ((7 : Nat) : Int)) 0 = 0 := rfl
  have p1 : prevStop (every ((7 : Nat) : Int)) 121709 = 851963 := by
    rw [prevStop_every]; norm_num
  have hL : testData.length = 851968 := testData_length
  have hfirst := fault_localization (every ((7 : Nat) : Int)) id testData 0 151 0
    [testData.set 0 151] 851969 hp (by rw [hL]; decide) (by rw [p0]; decide)
    (by rw [e0]; decide) (by simp) (by simp [hL]) (by rw [hL]; decide)
    (by
      rw [p0, e0, (testData_first_chunk 151).1, (testData_first_chunk 151).2]
      decide)
  have hlast := fault_localization (every ((7 : Nat) : Int)) id testData 851967 222 121709
    [testData.set 851967 222] 851969 hp (by rw [hL]; decide) (by rw [p1]; decide)
    (by rw [e1]; decide) (by simp) (by simp [hL]) (by rw [hL]; decide)
    (by
      rw [p1, e1, (testData_last_chunk 222).1, (testData_last_chunk 222).2]
      decide)
  have h1 := hfirst.2.1 (by rw [e0, hL]; decide)
  have h2 := hlast.2.2 (by rw [e1, hL]; decide)
  rw [e0] at h1
  rw [hL] at h2
  refine ⟨h1.1, ?_, ?_⟩
  · rw [h2.1]
    simp [hL]
  · rw [h2.2.1]
    rfl

/-- After `Write([1])`: `Write([2])` then `Write([3, 4])` against one `Write([2, 3, 4])`,
with a boundary every 2 bytes. -/
theorem write_concat_witness :
    (afterWrites (ideal (every 2) id accept) 4 ([[1]] ++ [[2], [3, 4]])
        World.initial).2.2.events
        = (afterWrites (ideal (every 2) id accept) 4 ([[1]] ++ [[2] ++ [3, 4]])
            World.initial).2.2.events ∧
      (afterWrites (ideal (every 2) id accept) 4 ([[1]] ++ [[2], [3, 4]])
        World.initial).2.1.h
        = (afterWrites (ideal (every 2) id accept) 4 ([[1]] ++ [[2] ++ [3, 4]])
            World.initial).2.1.h :=
  have h := write_concat (every 2) id [[1]] [2] [3, 4] 4 every_two_policy (by decide)
    (by decide)
  ⟨h.2.2.2.1, h.2.2.2.2.2.2⟩

end hashingwriter
